import Mathlib

/-!
# Best Wordle words: a verification development of `main.c`

The program scores every candidate word against a corpus of answer words,
sorts the candidates and reports the top-scoring ones; for each of them it
then blanks the letters already claimed out of a copy of the answers and
repeats the search for a second word.

Modelling conventions.

* A C string held in a `char word[WORD_LENGTH + 1]` buffer is the list of
  its characters before the terminating NUL.  Every loop of the program runs
  over the indices `0 .. WORD_LENGTH - 1`; an index read is `List.getD` and an
  index write is `List.set`.  The results are about words of exactly
  `WORD_LENGTH` characters, which is what the program stores; a word of four
  letters, whose buffer holds the letters and the terminator at the indices
  `0 .. WORD_LENGTH - 1`, is treated in a section of its own.
* An array together with its element count is a list; the count is its length.
* A C `int` is an `Int`.  Where a value can leave the 32-bit range the
  arithmetic is reduced by `wrapInt32` (two's complement wrap-around); the
  comparison score of two words never exceeds 15, so it is left unreduced.
* A read outside an allocated array has no defined result; functions that can
  perform one return `Except Fault _`.
-/

namespace BestWordle

/-! ## Data model -/

/-- The macro `WORD_LENGTH`. -/
def WORD_LENGTH : Nat := 5

/-- The character `' '` used to blank out letters that were already used. -/
def BLANK : Char := ' '

/-- The string terminator, which is what a read one past the letters of a
word shorter than `WORD_LENGTH` finds. -/
def NUL : Char := Char.ofNat 0

/-- The struct `wordCount`: a word and its score. -/
structure wordCountStruct where
  word : List Char
  score : Int
  deriving DecidableEq, Repr

/-- Reduction of an integer to the range of a 32-bit two's complement `int`. -/
def wrapInt32 (x : Int) : Int :=
  (x + 2147483648) % 4294967296 - 2147483648

/-! ## `getSingleWordComparisonScore` -/

/-- The local variables of `getSingleWordComparisonScore`: the two working
copies and the accumulated score. -/
structure CompareState where
  originalWord : List Char
  comparisonWord : List Char
  score : Int
  deriving DecidableEq, Repr

/-- Body of the first loop (`// Find exact matches`) at index `i`. -/
def exactStep (st : CompareState) (i : Nat) : CompareState :=
  if st.originalWord.getD i NUL = st.comparisonWord.getD i NUL then
    { originalWord := st.originalWord.set i BLANK
      comparisonWord := st.comparisonWord.set i BLANK
      score := st.score + 3 }
  else st

/-- The inner loop `for (j ...)` of the second pass, for the letter `c` read
at index `i`: `k` iterations are left and the next value of the loop counter
is `j`.  A match updates the state and leaves the loop (`break`). -/
def reposInner (c : Char) (i : Nat) : Nat → Nat → CompareState → CompareState
  | 0, _, st => st
  | k + 1, j, st =>
    if c = st.comparisonWord.getD j NUL then
      { originalWord := st.originalWord.set i BLANK
        comparisonWord := st.comparisonWord.set j BLANK
        score := st.score + 1 }
    else reposInner c i k (j + 1) st

/-- Body of the second outer loop (matching letter in a different position)
at index `i`. -/
def reposStep (st : CompareState) (i : Nat) : CompareState :=
  let c := st.originalWord.getD i NUL
  if c ≠ BLANK then reposInner c i WORD_LENGTH 0 st else st

/-- The state of `getSingleWordComparisonScore` after its first loop: the
words are copied, the score starts at 0 and the exact matches are found. -/
def compareAfterExact (originalWordParameter comparisonWordParameter : List Char) :
    CompareState :=
  (List.range WORD_LENGTH).foldl exactStep
    { originalWord := originalWordParameter
      comparisonWord := comparisonWordParameter
      score := 0 }

/-- The state of `getSingleWordComparisonScore` when it reaches `return`. -/
def compareFinalState (originalWordParameter comparisonWordParameter : List Char) :
    CompareState :=
  (List.range WORD_LENGTH).foldl reposStep
    (compareAfterExact originalWordParameter comparisonWordParameter)

/-- The function `getSingleWordComparisonScore`. -/
def getSingleWordComparisonScore (originalWordParameter comparisonWordParameter : List Char) :
    Int :=
  (compareFinalState originalWordParameter comparisonWordParameter).score

/-! ## `getScore` -/

/-- The function `getScore`: the comparison scores of the guess against every
answer word, accumulated in an `int`. -/
def getScore (theGuess : List Char) (answerWords : List wordCountStruct) : Int :=
  answerWords.foldl
    (fun score a => wrapInt32 (score + getSingleWordComparisonScore theGuess a.word)) 0

/-! ## `compareFunction` and the sort -/

/-- The library function `strcmp` on two NUL-terminated strings: zero when
they are equal, otherwise the difference of the first two characters that
differ (only its sign is specified by the C standard, and only its sign is
used below). -/
def strcmp : List Char → List Char → Int
  | [], [] => 0
  | [], y :: _ => (NUL.toNat : Int) - (y.toNat : Int)
  | x :: _, [] => (x.toNat : Int) - (NUL.toNat : Int)
  | x :: xs, y :: ys => if x = y then strcmp xs ys else (x.toNat : Int) - (y.toNat : Int)

/-- The function `compareFunction` handed to `qsort`. -/
def compareFunction (a b : wordCountStruct) : Int :=
  let firstScore := a.score
  let secondScore := b.score
  if firstScore ≠ secondScore then wrapInt32 (secondScore - firstScore)
  else strcmp a.word b.word

/-- Insertion of one element into a sorted array; `cmp x y ≤ 0` places `x`
before `y`. -/
def qsortInsert (cmp : wordCountStruct → wordCountStruct → Int) (x : wordCountStruct) :
    List wordCountStruct → List wordCountStruct
  | [] => [x]
  | y :: ys => if cmp x y ≤ 0 then x :: y :: ys else y :: qsortInsert cmp x ys

/-- The library function `qsort`, as an insertion sort driven by the
comparison function.  The C standard leaves the algorithm open; it promises a
rearrangement of the array in which no element compares greater than a later
one.  Which such rearrangement is produced makes no difference to the words
selected afterwards (`selectTopWords_unique`). -/
def qsort (cmp : wordCountStruct → wordCountStruct → Int) :
    List wordCountStruct → List wordCountStruct
  | [] => []
  | x :: xs => qsortInsert cmp x (qsort cmp xs)

/-! ## `findScoresAndTopWords` -/

/-- What goes wrong when the program reads an array element that was never
allocated: the C standard gives such a read no meaning. -/
inductive Fault where
  | outOfBounds
  deriving DecidableEq, Repr

/-- What `findScoresAndTopWords` leaves behind: the array `allWords` scored
and sorted, and the two reference parameters. -/
structure TopWords where
  allWords : List wordCountStruct
  bestWords : List wordCountStruct
  numberOfTopScoringWords : Nat
  deriving DecidableEq, Repr

instance : DecidableEq (Except Fault TopWords) := fun x y =>
  match x, y with
  | Except.ok a, Except.ok b =>
    if h : a = b then isTrue (by rw [h]) else isFalse (fun e => h (Except.ok.inj e))
  | Except.error a, Except.error b =>
    if h : a = b then isTrue (by rw [h]) else isFalse (fun e => h (Except.error.inj e))
  | Except.ok _, Except.error _ => isFalse (fun e => Except.noConfusion e)
  | Except.error _, Except.ok _ => isFalse (fun e => Except.noConfusion e)

/-- The loop `while (allWords[index].score == topScore) index++`, started at
`index` with the elements from `index` on still ahead.  The loop tests no
bound: once the elements are used up it reads past the end of the array. -/
def topScan (topScore : Int) : List wordCountStruct → Nat → Except Fault Nat
  | [], _ => Except.error Fault.outOfBounds
  | w :: rest, index =>
    if w.score = topScore then topScan topScore rest (index + 1) else Except.ok index

/-- The part of `findScoresAndTopWords` that follows the sort: the top score
is read from `allWords[0]` (an element that an empty array does not have),
the words sharing it are counted, and that many words are copied into
`bestWords`, each with the top score. -/
def selectTopWords (allWords : List wordCountStruct) : Except Fault TopWords :=
  match allWords with
  | [] => Except.error Fault.outOfBounds
  | first :: _ =>
    let topScore := first.score
    match topScan topScore allWords 0 with
    | Except.error e => Except.error e
    | Except.ok index =>
      Except.ok
        { allWords := allWords
          bestWords := (allWords.take index).map (fun w => { word := w.word, score := topScore })
          numberOfTopScoringWords := index }

/-- The scoring loop of `findScoresAndTopWords`: every word of `allWords`
gets its `getScore` against the answers. -/
def scoreAllWords (answerWords allWords : List wordCountStruct) : List wordCountStruct :=
  allWords.map (fun w => { w with score := getScore w.word answerWords })

/-- The function `findScoresAndTopWords`: score every word, sort, select. -/
def findScoresAndTopWords (answerWords allWords : List wordCountStruct) :
    Except Fault TopWords :=
  selectTopWords (qsort compareFunction (scoreAllWords answerWords allWords))

/-! ## `removeMatchingLetters` -/

/-- The two buffers `removeMatchingLetters` works on while it handles one
answer word: the copy of the best word and the answer word itself. -/
structure RemoveState where
  bestWordCopy : List Char
  answerWord : List Char
  deriving DecidableEq, Repr

/-- Body of the loop that blanks matching letters in the same position, at
index `j`. -/
def removeExactStep (st : RemoveState) (j : Nat) : RemoveState :=
  if st.bestWordCopy.getD j NUL = st.answerWord.getD j NUL then
    { bestWordCopy := st.bestWordCopy.set j BLANK
      answerWord := st.answerWord.set j BLANK }
  else st

/-- The inner loop `for (k ...)` for the letter of the best word at index
`j`: `n` iterations are left and the next value of the loop counter is `k`. -/
def removeInner (j : Nat) : Nat → Nat → RemoveState → RemoveState
  | 0, _, st => st
  | n + 1, k, st =>
    if st.bestWordCopy.getD j NUL = st.answerWord.getD k NUL then
      { st with answerWord := st.answerWord.set k BLANK }
    else removeInner j n (k + 1) st

/-- Body of the loop that blanks matching letters in different positions, at
index `j`. -/
def removeReposStep (st : RemoveState) (j : Nat) : RemoveState :=
  removeInner j WORD_LENGTH 0 st

/-- The two buffers after the first inner loop of `removeMatchingLetters`,
for one answer word: the best word is copied and the letters matching in the
same position are blanked. -/
def removeAfterExact (bestWord answerWord : List Char) : RemoveState :=
  (List.range WORD_LENGTH).foldl removeExactStep
    { bestWordCopy := bestWord, answerWord := answerWord }

/-- What one iteration of the outer loop of `removeMatchingLetters` does to
its answer word. -/
def removeMatchingLettersWord (bestWord answerWord : List Char) : List Char :=
  ((List.range WORD_LENGTH).foldl removeReposStep
    (removeAfterExact bestWord answerWord)).answerWord

/-- The function `removeMatchingLetters`: every word of `answerWordsCopy`
is treated in turn; the scores are not touched. -/
def removeMatchingLetters (answerWordsCopy : List wordCountStruct) (bestWord : List Char) :
    List wordCountStruct :=
  answerWordsCopy.map (fun a => { a with word := removeMatchingLettersWord bestWord a.word })

/-! ## `findAndDisplayBestSecondWords` and the loop of `main` that calls it

The arrays `answerWords` and `allWords` belong to `main`; a function that
receives them works on the caller's storage.  The state records below hold
these arrays as each function leaves them. -/

instance instDecidableEqExceptFault {α : Type} [DecidableEq α] :
    DecidableEq (Except Fault α) := fun x y =>
  match x, y with
  | Except.ok a, Except.ok b =>
    if h : a = b then isTrue (by rw [h]) else isFalse (fun e => h (Except.ok.inj e))
  | Except.error a, Except.error b =>
    if h : a = b then isTrue (by rw [h]) else isFalse (fun e => h (Except.error.inj e))
  | Except.ok _, Except.error _ => isFalse (fun e => Except.noConfusion e)
  | Except.error _, Except.ok _ => isFalse (fun e => Except.noConfusion e)

/-- The storage after a call of `findAndDisplayBestSecondWords`: the caller's
arrays `answerWords` and `allWords`, the array `answerWordsCopy` allocated by
the call, and what the call displays (the best word with its score, then the
best second words). -/
structure SecondWords where
  answerWords : List wordCountStruct
  allWords : List wordCountStruct
  answerWordsCopy : List wordCountStruct
  bestWord : List Char
  bestWordScore : Int
  bestSecondWords : List wordCountStruct
  numberOfTopScoringSecondWords : Nat
  deriving DecidableEq, Repr

/-- The function `findAndDisplayBestSecondWords`.  It reads
`bestWords[bestWordIndex]`, copies the words of `answerWords` into a new
array with the scores set to 0, removes the letters of the best word from the
copy, and runs `findScoresAndTopWords` on the copy and `allWords`; it never
assigns to `answerWords`. -/
def findAndDisplayBestSecondWords (answerWords allWords bestWords : List wordCountStruct)
    (bestWordIndex : Nat) : Except Fault SecondWords :=
  match bestWords[bestWordIndex]? with
  | none => Except.error Fault.outOfBounds
  | some best =>
    let bestWord := best.word
    let bestWordScore := best.score
    let answerWordsCopy :=
      answerWords.map (fun a => ({ word := a.word, score := 0 } : wordCountStruct))
    let answerWordsCopy := removeMatchingLetters answerWordsCopy bestWord
    match findScoresAndTopWords answerWordsCopy allWords with
    | Except.error e => Except.error e
    | Except.ok r =>
      Except.ok
        { answerWords := answerWords
          allWords := r.allWords
          answerWordsCopy := answerWordsCopy
          bestWord := bestWord
          bestWordScore := bestWordScore
          bestSecondWords := r.bestWords
          numberOfTopScoringSecondWords := r.numberOfTopScoringWords }

/-- The arrays of `main` while its loop over the top-scoring first words
runs, and what the calls made so far have left and displayed. -/
structure RoundsState where
  answerWords : List wordCountStruct
  allWords : List wordCountStruct
  rounds : List SecondWords
  deriving DecidableEq, Repr

/-- The loop `for (i ...) findAndDisplayBestSecondWords(answerWords, ...,
allWords, ..., bestWords, i)` of `main`, for the indices still to come: every
call receives the arrays as the call before left them. -/
def secondWordRounds (bestWords : List wordCountStruct) :
    List Nat → RoundsState → Except Fault RoundsState
  | [], st => Except.ok st
  | i :: rest, st =>
    match findAndDisplayBestSecondWords st.answerWords st.allWords bestWords i with
    | Except.error e => Except.error e
    | Except.ok s =>
      secondWordRounds bestWords rest
        { answerWords := s.answerWords, allWords := s.allWords, rounds := st.rounds ++ [s] }

/-! ## Auxiliary descriptions used in the proofs

These functions are not part of the program.  They describe, by recursion on
the words, what the index loops above compute; the lemmas of the next section
connect each of them with the loop it describes. -/

/-- A word is made of exactly `WORD_LENGTH` characters. -/
def IsWord (w : List Char) : Prop := w.length = WORD_LENGTH

/-- A word of `WORD_LENGTH` alphabetic characters. -/
def IsAlphaWord (w : List Char) : Prop :=
  w.length = WORD_LENGTH ∧ ∀ x ∈ w, x.isAlpha = true

instance (w : List Char) : Decidable (IsWord w) := by
  unfold IsWord; infer_instance

instance (w : List Char) : Decidable (IsAlphaWord w) := by
  unfold IsAlphaWord; infer_instance

/-- Number of positions at which the two words hold the same character. -/
def exactCount : List Char → List Char → Nat
  | x :: xs, y :: ys => (if x = y then 1 else 0) + exactCount xs ys
  | _, _ => 0

/-- First word with the positions of the exact matches blanked. -/
def exactLeft : List Char → List Char → List Char
  | x :: xs, y :: ys => (if x = y then BLANK else x) :: exactLeft xs ys
  | xs, _ => xs

/-- Second word with the positions of the exact matches blanked. -/
def exactRight : List Char → List Char → List Char
  | x :: xs, y :: ys => (if x = y then BLANK else y) :: exactRight xs ys
  | _, ys => ys

/-- Blank the first occurrence of `x` in a word, if there is one. -/
def blankFirst (x : Char) : List Char → List Char
  | [] => []
  | y :: ys => if x = y then BLANK :: ys else y :: blankFirst x ys

/-- Blank, for each letter of `xs` in turn, its first occurrence in `cw`. -/
def blankAll (xs cw : List Char) : List Char :=
  xs.foldl (fun w x => blankFirst x w) cw

/-- Number of letters of `xs`, taken in turn, that find an occurrence in what
is left of `cw`. -/
def reposCount : List Char → List Char → Nat
  | [], _ => 0
  | x :: xs, cw =>
    if x ≠ BLANK ∧ x ∈ cw then reposCount xs (blankFirst x cw) + 1
    else reposCount xs cw

/-- The letters of a word, blanks left out, as a multiset. -/
def letters (w : List Char) : Multiset Char :=
  ((w.filter (fun x => x ≠ BLANK) : List Char) : Multiset Char)

/-- The words whose scores `compareFunction` can subtract without leaving
the `int` range: five letters and a score between 0 and `INT_MAX`. -/
def InRange (a : wordCountStruct) : Prop :=
  IsWord a.word ∧ 0 ≤ a.score ∧ a.score ≤ 2147483647

/-- The word `d` is the word `a` with some of its positions blanked: at every
position `d` holds the character of `a` or a blank. -/
def Blanked (a d : List Char) : Prop :=
  List.Forall₂ (fun x y => y = x ∨ y = BLANK) a d

/-! ## The closed form of the comparison score, in the words of its statement -/

/-- Number of positions `i` with `o[i] = c[i]`. -/
def matchingPositions (o c : List Char) : Nat :=
  (List.zip o c).countP (fun p => decide (p.1 = p.2))

/-- Number of occurrences of `x` in `o` at the positions that are not exact
matches with `c`. -/
def unmatchedInOriginal (x : Char) (o c : List Char) : Nat :=
  (List.zip o c).countP (fun p => decide (p.1 = x ∧ p.1 ≠ p.2))

/-- Number of occurrences of `x` in `c` at the positions that are not exact
matches with `o`. -/
def unmatchedInCandidate (x : Char) (o c : List Char) : Nat :=
  (List.zip o c).countP (fun p => decide (p.2 = x ∧ p.1 ≠ p.2))

/-! ## A word of four letters in the comparator -/

/-- The state in which the buffer `originalWord` also shows its terminator:
the four letters of a four-letter word followed by NUL. -/
def padOriginal (st : CompareState) : CompareState :=
  { st with originalWord := st.originalWord ++ [NUL] }

/-- The buffer `originalWord` holds a word of four letters and the buffer
`comparisonWord` a word of five characters, none of them NUL. -/
def ShortOriginal (st : CompareState) : Prop :=
  st.originalWord.length + 1 = WORD_LENGTH ∧ st.comparisonWord.length = WORD_LENGTH ∧
    NUL ∉ st.comparisonWord

/-! ## The loops of `getSingleWordComparisonScore` -/

theorem getD_append_cons (pre : List Char) (x : Char) (xs : List Char) (d : Char) :
    (pre ++ x :: xs).getD pre.length d = x := by
  induction pre with
  | nil => simp
  | cons p ps ih => simpa using ih

theorem set_append_cons (pre : List Char) (x v : Char) (xs : List Char) :
    (pre ++ x :: xs).set pre.length v = pre ++ v :: xs := by
  induction pre with
  | nil => simp
  | cons p ps ih => simp [ih]

theorem blankFirst_length (x : Char) (cw : List Char) :
    (blankFirst x cw).length = cw.length := by
  induction cw with
  | nil => rfl
  | cons y ys ih =>
    unfold blankFirst
    split <;> simp [ih]

theorem blankFirst_of_not_mem (x : Char) (cw : List Char) (h : x ∉ cw) :
    blankFirst x cw = cw := by
  induction cw with
  | nil => rfl
  | cons y ys ih =>
    simp only [List.mem_cons, not_or] at h
    unfold blankFirst
    rw [if_neg h.1, ih h.2]

theorem blankFirst_blank (cw : List Char) : blankFirst BLANK cw = cw := by
  induction cw with
  | nil => rfl
  | cons y ys ih =>
    unfold blankFirst
    split
    · rename_i h; rw [← h]
    · rw [ih]

/-- The exact-match loop over the rest of the two words. -/
theorem exact_loop (so sc : List Char) :
    ∀ (po pc : List Char) (s : Int), po.length = pc.length → so.length = sc.length →
      (List.range' po.length so.length).foldl exactStep
          { originalWord := po ++ so, comparisonWord := pc ++ sc, score := s } =
        { originalWord := po ++ exactLeft so sc
          comparisonWord := pc ++ exactRight so sc
          score := s + 3 * (exactCount so sc : Int) } := by
  induction so generalizing sc with
  | nil =>
    intro po pc s _ h2
    cases sc with
    | nil => simp [exactLeft, exactRight, exactCount]
    | cons y ys => simp at h2
  | cons x xs ih =>
    intro po pc s h1 h2
    cases sc with
    | nil => simp at h2
    | cons y ys =>
      simp only [List.length_cons, Nat.add_right_cancel_iff] at h2
      simp only [List.length_cons, List.range'_succ, List.foldl_cons]
      have hstep : exactStep
          { originalWord := po ++ x :: xs, comparisonWord := pc ++ y :: ys, score := s }
          po.length =
          { originalWord := (po ++ [if x = y then BLANK else x]) ++ xs
            comparisonWord := (pc ++ [if x = y then BLANK else y]) ++ ys
            score := s + 3 * ((if x = y then 1 else 0 : Nat) : Int) } := by
        unfold exactStep
        simp only [getD_append_cons]
        rw [h1, getD_append_cons, ← h1]
        by_cases hxy : x = y
        · simp only [hxy, if_true, set_append_cons]
          rw [h1, set_append_cons]
          simp
        · simp [hxy]
      rw [hstep]
      have hl : po.length + 1 = (po ++ [if x = y then BLANK else x]).length := by simp
      rw [hl, ih ys _ _ _ (by simp [h1]) h2]
      simp only [exactLeft, exactRight, exactCount, List.append_assoc, List.singleton_append,
        CompareState.mk.injEq, true_and]
      push_cast
      ring

/-- The inner loop of the second pass, run over the rest `suf` of the
comparison word: it blanks the first occurrence of `c`, if there is one. -/
theorem reposInner_eq (c : Char) (i : Nat) (ow : List Char) (s : Int) (suf : List Char) :
    ∀ pre : List Char,
      reposInner c i suf.length pre.length
          { originalWord := ow, comparisonWord := pre ++ suf, score := s } =
        if c ∈ suf then
          { originalWord := ow.set i BLANK
            comparisonWord := pre ++ blankFirst c suf
            score := s + 1 }
        else { originalWord := ow, comparisonWord := pre ++ suf, score := s } := by
  induction suf with
  | nil => intro pre; simp [reposInner]
  | cons y ys ih =>
    intro pre
    simp only [List.length_cons, reposInner, getD_append_cons]
    by_cases hcy : c = y
    · subst hcy
      simp [set_append_cons, blankFirst]
    · have hl : pre.length + 1 = (pre ++ [y]).length := by simp
      have ha : pre ++ y :: ys = (pre ++ [y]) ++ ys := by simp
      rw [if_neg hcy, hl, ha, ih (pre ++ [y])]
      simp [hcy, blankFirst]

/-- One iteration of the second outer loop on a state whose comparison word
has `WORD_LENGTH` characters. -/
theorem reposStep_eq (pre : List Char) (x : Char) (xs cw : List Char) (s : Int)
    (hcw : cw.length = WORD_LENGTH) :
    reposStep { originalWord := pre ++ x :: xs, comparisonWord := cw, score := s } pre.length =
      if x ≠ BLANK ∧ x ∈ cw then
        { originalWord := pre ++ BLANK :: xs, comparisonWord := blankFirst x cw, score := s + 1 }
      else { originalWord := pre ++ x :: xs, comparisonWord := cw, score := s } := by
  unfold reposStep
  simp only [getD_append_cons]
  by_cases hx : x = BLANK
  · simp [hx]
  · have h := reposInner_eq x pre.length (pre ++ x :: xs) s cw []
    simp only [List.nil_append, List.length_nil, hcw] at h
    simp only [ne_eq, hx, not_false_eq_true, if_true, true_and, h, set_append_cons]

/-- The second outer loop over the rest `suf` of the original word. -/
theorem repos_loop (suf : List Char) :
    ∀ (pre cw : List Char) (s : Int), cw.length = WORD_LENGTH →
      ∃ ow : List Char,
        (List.range' pre.length suf.length).foldl reposStep
            { originalWord := pre ++ suf, comparisonWord := cw, score := s } =
          { originalWord := ow
            comparisonWord := blankAll suf cw
            score := s + (reposCount suf cw : Int) } := by
  induction suf with
  | nil => intro pre cw s _; exact ⟨pre, by simp [blankAll, reposCount]⟩
  | cons x xs ih =>
    intro pre cw s hcw
    simp only [List.length_cons, List.range'_succ, List.foldl_cons]
    rw [reposStep_eq pre x xs cw s hcw]
    by_cases hx : x ≠ BLANK ∧ x ∈ cw
    · rw [if_pos hx]
      have hl : pre.length + 1 = (pre ++ [BLANK]).length := by simp
      have ha : pre ++ BLANK :: xs = (pre ++ [BLANK]) ++ xs := by simp
      obtain ⟨ow, how⟩ := ih (pre ++ [BLANK]) (blankFirst x cw) (s + 1)
        (by rw [blankFirst_length]; exact hcw)
      refine ⟨ow, ?_⟩
      rw [hl, ha, how]
      simp only [blankAll, List.foldl_cons, reposCount, if_pos hx, CompareState.mk.injEq,
        true_and]
      push_cast
      ring
    · rw [if_neg hx]
      have hl : pre.length + 1 = (pre ++ [x]).length := by simp
      have ha : pre ++ x :: xs = (pre ++ [x]) ++ xs := by simp
      obtain ⟨ow, how⟩ := ih (pre ++ [x]) cw s hcw
      refine ⟨ow, ?_⟩
      rw [hl, ha, how]
      have hb : blankFirst x cw = cw := by
        by_cases hxb : x = BLANK
        · rw [hxb, blankFirst_blank]
        · exact blankFirst_of_not_mem x cw (fun hm => hx ⟨hxb, hm⟩)
      simp only [blankAll, List.foldl_cons, reposCount, if_neg hx, hb]

theorem exactLeft_length (o c : List Char) : (exactLeft o c).length = o.length := by
  induction o generalizing c with
  | nil => cases c <;> rfl
  | cons x xs ih => cases c <;> simp [exactLeft, ih]

theorem exactRight_length (o c : List Char) : (exactRight o c).length = c.length := by
  induction o generalizing c with
  | nil => cases c <;> rfl
  | cons x xs ih => cases c <;> simp [exactRight, ih]

/-- The score after the first loop is three times the number of exact matches. -/
theorem afterExact_score (o c : List Char) (ho : IsWord o) (hc : IsWord c) :
    (compareAfterExact o c).score = 3 * (exactCount o c : Int) := by
  unfold IsWord at ho hc
  have h1 := exact_loop o c [] [] 0 rfl (by rw [ho, hc])
  simp only [List.length_nil, List.nil_append, ho] at h1
  unfold compareAfterExact
  simp only [List.range_eq_range', h1]
  ring

/-- The comparison score of two words in terms of the auxiliary functions. -/
theorem score_eq (o c : List Char) (ho : IsWord o) (hc : IsWord c) :
    getSingleWordComparisonScore o c =
      3 * (exactCount o c : Int) + (reposCount (exactLeft o c) (exactRight o c) : Int) := by
  unfold IsWord at ho hc
  have h1 := exact_loop o c [] [] 0 rfl (by rw [ho, hc])
  obtain ⟨ow, h2⟩ := repos_loop (exactLeft o c) [] (exactRight o c) (0 + 3 * (exactCount o c : Int))
    (by rw [exactRight_length, hc])
  simp only [List.length_nil, List.nil_append, exactLeft_length, ho] at h1 h2
  unfold getSingleWordComparisonScore compareFinalState compareAfterExact
  simp only [List.range_eq_range', h1, h2]
  ring

/-- The working copy of the comparison word at the end of the comparison. -/
theorem comparisonWord_eq (o c : List Char) (ho : IsWord o) (hc : IsWord c) :
    (compareFinalState o c).comparisonWord = blankAll (exactLeft o c) (exactRight o c) := by
  unfold IsWord at ho hc
  have h1 := exact_loop o c [] [] 0 rfl (by rw [ho, hc])
  obtain ⟨ow, h2⟩ := repos_loop (exactLeft o c) [] (exactRight o c) (0 + 3 * (exactCount o c : Int))
    (by rw [exactRight_length, hc])
  simp only [List.length_nil, List.nil_append, exactLeft_length, ho] at h1 h2
  unfold compareFinalState compareAfterExact
  simp only [List.range_eq_range', h1, h2]

/-! ## Letters and counts -/

theorem letters_nil : letters [] = 0 := rfl

theorem letters_cons_blank (w : List Char) : letters (BLANK :: w) = letters w := by
  simp [letters]

theorem letters_cons_of_ne (x : Char) (w : List Char) (hx : x ≠ BLANK) :
    letters (x :: w) = x ::ₘ letters w := by
  simp [letters, hx]

theorem mem_letters (x : Char) (w : List Char) : x ∈ letters w ↔ x ∈ w ∧ x ≠ BLANK := by
  simp [letters]

theorem card_letters_le (w : List Char) : Multiset.card (letters w) ≤ w.length := by
  simp only [letters, Multiset.coe_card]
  exact List.length_filter_le _ _

theorem letters_blankFirst (x : Char) (hx : x ≠ BLANK) (cw : List Char) :
    letters (blankFirst x cw) = (letters cw).erase x := by
  induction cw with
  | nil => simp [blankFirst, letters]
  | cons y ys ih =>
    unfold blankFirst
    by_cases hxy : x = y
    · subst hxy
      rw [if_pos rfl, letters_cons_blank, letters_cons_of_ne x ys hx, Multiset.erase_cons_head]
    · rw [if_neg hxy]
      by_cases hy : y = BLANK
      · subst hy
        rw [letters_cons_blank, letters_cons_blank, ih]
      · rw [letters_cons_of_ne y _ hy, letters_cons_of_ne y _ hy, ih,
          Multiset.erase_cons_tail _ (Ne.symm hxy)]

/-- The second pass credits as many letters as the two remaining words share,
counted with multiplicity. -/
theorem reposCount_eq_card (xs : List Char) :
    ∀ cw : List Char, reposCount xs cw = Multiset.card (letters xs ∩ letters cw) := by
  induction xs with
  | nil => intro cw; simp [reposCount, letters]
  | cons x xs ih =>
    intro cw
    unfold reposCount
    by_cases hx : x = BLANK
    · subst hx
      simp only [ne_eq, not_true_eq_false, false_and, if_false, letters_cons_blank]
      exact ih cw
    · by_cases hm : x ∈ cw
      · have hml : x ∈ letters cw := (mem_letters x cw).2 ⟨hm, hx⟩
        rw [if_pos ⟨hx, hm⟩, ih, letters_blankFirst x hx, letters_cons_of_ne x xs hx,
          Multiset.cons_inter_of_pos _ hml, Multiset.card_cons]
      · have hml : x ∉ letters cw := fun h => hm ((mem_letters x cw).1 h).1
        rw [if_neg (fun h => hm h.2), ih, letters_cons_of_ne x xs hx,
          Multiset.cons_inter_of_neg _ hml]

theorem exactCount_comm (o c : List Char) : exactCount o c = exactCount c o := by
  induction o generalizing c with
  | nil => cases c <;> rfl
  | cons x xs ih =>
    cases c with
    | nil => rfl
    | cons y ys => simp only [exactCount, ih ys, eq_comm]

theorem exactLeft_eq_exactRight_swap (o c : List Char) : exactLeft o c = exactRight c o := by
  induction o generalizing c with
  | nil => cases c <;> rfl
  | cons x xs ih =>
    cases c with
    | nil => rfl
    | cons y ys => simp only [exactLeft, exactRight, ih ys, eq_comm]

theorem exactRight_eq_exactLeft_swap (o c : List Char) : exactRight o c = exactLeft c o :=
  (exactLeft_eq_exactRight_swap c o).symm

/-- The comparison score does not depend on the order of its two arguments. -/
theorem score_comm (o c : List Char) (ho : IsWord o) (hc : IsWord c) :
    getSingleWordComparisonScore o c = getSingleWordComparisonScore c o := by
  rw [score_eq o c ho hc, score_eq c o hc ho, exactCount_comm o c, reposCount_eq_card,
    reposCount_eq_card, exactLeft_eq_exactRight_swap o c, exactRight_eq_exactLeft_swap o c,
    Multiset.inter_comm]

theorem exactCount_self (w : List Char) : exactCount w w = w.length := by
  induction w with
  | nil => rfl
  | cons x xs ih => simp [exactCount, ih]; omega

theorem letters_exactLeft_self (w : List Char) : letters (exactLeft w w) = 0 := by
  induction w with
  | nil => rfl
  | cons x xs ih => simp [exactLeft, letters_cons_blank, ih]

/-- Every exact match blanks one position of the first word. -/
theorem exactCount_add_card_letters_le (o c : List Char) :
    exactCount o c + Multiset.card (letters (exactLeft o c)) ≤ o.length := by
  induction o generalizing c with
  | nil => cases c <;> simp [exactCount, exactLeft, letters]
  | cons x xs ih =>
    cases c with
    | nil =>
      have := card_letters_le (x :: xs)
      simpa [exactCount, exactLeft] using this
    | cons y ys =>
      have h := ih ys
      simp only [exactCount, exactLeft, List.length_cons]
      by_cases hxy : x = y
      · simp only [hxy, if_true, letters_cons_blank]
        omega
      · simp only [hxy, if_false]
        by_cases hx : x = BLANK
        · rw [hx, letters_cons_blank]; omega
        · rw [letters_cons_of_ne x _ hx, Multiset.card_cons]; omega

/-- Exact and repositioned credits together never exceed the word length. -/
theorem credits_le (o c : List Char) :
    exactCount o c + reposCount (exactLeft o c) (exactRight o c) ≤ o.length := by
  have h1 := exactCount_add_card_letters_le o c
  have h2 : reposCount (exactLeft o c) (exactRight o c) ≤
      Multiset.card (letters (exactLeft o c)) := by
    rw [reposCount_eq_card]
    exact Multiset.card_le_card (Multiset.inter_le_left _ _)
  omega

theorem mem_exactLeft (o c : List Char) (x : Char) (h : x ∈ exactLeft o c) :
    x ∈ o ∨ x = BLANK := by
  induction o generalizing c with
  | nil => cases c <;> simp [exactLeft] at h
  | cons a as ih =>
    cases c with
    | nil => left; simpa [exactLeft] using h
    | cons b bs =>
      simp only [exactLeft, List.mem_cons] at h
      rcases h with h | h
      · by_cases hab : a = b
        · right; simpa [hab] using h
        · left; simp only [hab, if_false] at h; simp [h]
      · rcases ih bs h with h | h
        · left; exact List.mem_cons_of_mem _ h
        · right; exact h

theorem mem_exactRight (o c : List Char) (x : Char) (h : x ∈ exactRight o c) :
    x ∈ c ∨ x = BLANK := by
  rw [exactRight_eq_exactLeft_swap] at h
  exact mem_exactLeft c o x h

theorem exactCount_eq_zero_of_disjoint (o c : List Char) (h : ∀ x ∈ o, x ∉ c) :
    exactCount o c = 0 := by
  induction o generalizing c with
  | nil => cases c <;> rfl
  | cons a as ih =>
    cases c with
    | nil => rfl
    | cons b bs =>
      have hab : a ≠ b := fun e => h a (List.mem_cons_self a as) (by simp [e])
      have ht : ∀ x ∈ as, x ∉ bs := fun x hx hb =>
        h x (List.mem_cons_of_mem _ hx) (List.mem_cons_of_mem _ hb)
      simp [exactCount, hab, ih bs ht]

theorem reposCount_eq_zero (xs cw : List Char) (h : ∀ x ∈ xs, x ≠ BLANK → x ∉ cw) :
    reposCount xs cw = 0 := by
  induction xs with
  | nil => rfl
  | cons x xs ih =>
    have hx : ¬ (x ≠ BLANK ∧ x ∈ cw) := fun hc => h x (List.mem_cons_self x xs) hc.1 hc.2
    unfold reposCount
    rw [if_neg hx]
    exact ih (fun y hy => h y (List.mem_cons_of_mem _ hy))

/-- Two words without a common character score nothing. -/
theorem score_eq_zero_of_disjoint (o c : List Char) (ho : IsWord o) (hc : IsWord c)
    (h : ∀ x ∈ o, x ∉ c) : getSingleWordComparisonScore o c = 0 := by
  rw [score_eq o c ho hc, exactCount_eq_zero_of_disjoint o c h, reposCount_eq_zero]
  · simp
  · intro x hx hxb hxc
    rcases mem_exactLeft o c x hx with h1 | h1
    · rcases mem_exactRight o c x hxc with h2 | h2
      · exact h x h1 h2
      · exact hxb h2
    · exact hxb h1

theorem isWord_of_isAlphaWord {w : List Char} (h : IsAlphaWord w) : IsWord w := h.1

/-! ## The comparison score: examples and general properties -/

/-- C1, as the program computes it: for "aabbb" against "ababa" the first
loop finds the exact matches at indices 0 and 3 and credits 6, the second loop
credits the repositioned `a` and `b`, and the function returns 8. -/
theorem score_aabbb_ababa :
    (compareAfterExact "aabbb".toList "ababa".toList).score = 6 ∧
      (compareAfterExact "aabbb".toList "ababa".toList).originalWord = " ab b".toList ∧
      (compareAfterExact "aabbb".toList "ababa".toList).comparisonWord = " ba a".toList ∧
      getSingleWordComparisonScore "aabbb".toList "ababa".toList = 8 := by
  decide

/-- C1, refuted as stated: the score of "aabbb" against "ababa" is not 7. -/
theorem score_aabbb_ababa_ne_seven :
    getSingleWordComparisonScore "aabbb".toList "ababa".toList ≠ 7 := by
  decide

/-- C2, as the program computes it: for "abcde" against "aefgh" the exact
match at index 0 credits 3, the letter `e` is then found at another position
and credits 1, and the function returns 4. -/
theorem score_abcde_aefgh :
    (compareAfterExact "abcde".toList "aefgh".toList).score = 3 ∧
      (compareAfterExact "abcde".toList "aefgh".toList).originalWord = " bcde".toList ∧
      (compareAfterExact "abcde".toList "aefgh".toList).comparisonWord = " efgh".toList ∧
      getSingleWordComparisonScore "abcde".toList "aefgh".toList = 4 := by
  decide

/-- C2, refuted as stated: the score of "abcde" against "aefgh" is not 3. -/
theorem score_abcde_aefgh_ne_three :
    getSingleWordComparisonScore "abcde".toList "aefgh".toList ≠ 3 := by
  decide

/-- C3: every word of five alphabetic letters scores 15 against itself. -/
theorem score_self (w : List Char) (hw : IsAlphaWord w) :
    getSingleWordComparisonScore w w = 15 := by
  have hlen : w.length = 5 := hw.1
  rw [score_eq w w hw.1 hw.1, exactCount_self, reposCount_eq_card, letters_exactLeft_self, hlen]
  simp

/-- C3 at the word "apple". -/
theorem score_self_witness :
    IsAlphaWord "apple".toList ∧
      getSingleWordComparisonScore "apple".toList "apple".toList = 15 :=
  ⟨by decide, score_self "apple".toList (by decide)⟩

/-- C4: the score of two words of five alphabetic letters lies between 0 and
15, and it is `3 * e + r` where `3 * e` is the score the exact-match loop
leaves, `r` is what the second loop adds, and `e + r ≤ 5`. -/
theorem score_range (a b : List Char) (ha : IsAlphaWord a) (hb : IsAlphaWord b) :
    0 ≤ getSingleWordComparisonScore a b ∧ getSingleWordComparisonScore a b ≤ 15 ∧
      ∃ e r : Nat, (compareAfterExact a b).score = 3 * (e : Int) ∧
        getSingleWordComparisonScore a b = 3 * (e : Int) + (r : Int) ∧ e + r ≤ 5 := by
  have hlen : a.length = 5 := ha.1
  have hle := credits_le a b
  have hs := score_eq a b ha.1 hb.1
  have he := afterExact_score a b ha.1 hb.1
  refine ⟨by omega, by omega, exactCount a b, reposCount (exactLeft a b) (exactRight a b),
    he, hs, by omega⟩

/-- C4 at the words "aabbb" and "ababa". -/
theorem score_range_witness :
    IsAlphaWord "aabbb".toList ∧ IsAlphaWord "ababa".toList ∧
      (0 ≤ getSingleWordComparisonScore "aabbb".toList "ababa".toList ∧
        getSingleWordComparisonScore "aabbb".toList "ababa".toList ≤ 15 ∧
        ∃ e r : Nat, (compareAfterExact "aabbb".toList "ababa".toList).score = 3 * (e : Int) ∧
          getSingleWordComparisonScore "aabbb".toList "ababa".toList =
            3 * (e : Int) + (r : Int) ∧ e + r ≤ 5) :=
  ⟨by decide, by decide, score_range "aabbb".toList "ababa".toList (by decide) (by decide)⟩

/-- C5: two words of five alphabetic letters that have no letter in common
score 0. -/
theorem score_disjoint (a b : List Char) (ha : IsAlphaWord a) (hb : IsAlphaWord b)
    (hdisj : ∀ x ∈ a, x ∉ b) : getSingleWordComparisonScore a b = 0 :=
  score_eq_zero_of_disjoint a b ha.1 hb.1 hdisj

/-- C5 at the words "abcde" and "fghij". -/
theorem score_disjoint_witness :
    IsAlphaWord "abcde".toList ∧ IsAlphaWord "fghij".toList ∧
      (∀ x ∈ "abcde".toList, x ∉ "fghij".toList) ∧
      getSingleWordComparisonScore "abcde".toList "fghij".toList = 0 :=
  ⟨by decide, by decide, by decide,
    score_disjoint "abcde".toList "fghij".toList (by decide) (by decide) (by decide)⟩

/-- C6, as the program behaves: the comparison score is symmetric, for all
words of five alphabetic letters, repeated letters included. -/
theorem score_symmetric (a b : List Char) (ha : IsAlphaWord a) (hb : IsAlphaWord b) :
    getSingleWordComparisonScore a b = getSingleWordComparisonScore b a :=
  score_comm a b ha.1 hb.1

/-- C6 (amended) at "eerie" and "geese", which repeat `e` with different
multiplicities. -/
theorem score_symmetric_witness :
    IsAlphaWord "eerie".toList ∧ IsAlphaWord "geese".toList ∧
      getSingleWordComparisonScore "eerie".toList "geese".toList =
        getSingleWordComparisonScore "geese".toList "eerie".toList :=
  ⟨by decide, by decide, score_symmetric "eerie".toList "geese".toList (by decide) (by decide)⟩

/-- C6, refuted as stated: no two words of five alphabetic letters are scored
differently in the two orders. -/
theorem no_asymmetric_pair :
    ¬ ∃ a b : List Char, IsAlphaWord a ∧ IsAlphaWord b ∧
      getSingleWordComparisonScore a b ≠ getSingleWordComparisonScore b a := by
  rintro ⟨a, b, ha, hb, hne⟩
  exact hne (score_comm a b ha.1 hb.1)

/-! ## `getScore` -/

theorem wrapInt32_of_range (x : Int) (h1 : -2147483648 ≤ x) (h2 : x ≤ 2147483647) :
    wrapInt32 x = x := by
  unfold wrapInt32
  omega

theorem wrapInt32_add_left (x y : Int) : wrapInt32 (wrapInt32 x + y) = wrapInt32 (x + y) := by
  unfold wrapInt32
  omega

theorem score_nonneg (o c : List Char) (ho : IsWord o) (hc : IsWord c) :
    0 ≤ getSingleWordComparisonScore o c := by
  rw [score_eq o c ho hc]
  omega

theorem score_le (o c : List Char) (ho : IsWord o) (hc : IsWord c) :
    getSingleWordComparisonScore o c ≤ 15 := by
  have hlen : o.length = 5 := ho
  have h := credits_le o c
  rw [score_eq o c ho hc]
  omega

/-- The sum of the comparison scores of a guess against a list of answers. -/
theorem scoreSum_bounds (g : List Char) (hg : IsWord g) (l : List wordCountStruct)
    (hl : ∀ a ∈ l, IsWord a.word) :
    0 ≤ (l.map (fun a => getSingleWordComparisonScore g a.word)).sum ∧
      (l.map (fun a => getSingleWordComparisonScore g a.word)).sum ≤ 15 * (l.length : Int) := by
  induction l with
  | nil => simp
  | cons a as ih =>
    have h1 := score_nonneg g a.word hg (hl a (List.mem_cons_self a as))
    have h2 := score_le g a.word hg (hl a (List.mem_cons_self a as))
    have h3 := ih (fun b hb => hl b (List.mem_cons_of_mem _ hb))
    simp only [List.map_cons, List.sum_cons, List.length_cons]
    push_cast
    omega

/-- The accumulation loop of `getScore` while the running total stays inside
the `int` range. -/
theorem getScore_loop (g : List Char) (hg : IsWord g) (l : List wordCountStruct) :
    ∀ acc : Int, (∀ a ∈ l, IsWord a.word) → 0 ≤ acc →
      acc + 15 * (l.length : Int) ≤ 2147483647 →
      l.foldl (fun score a => wrapInt32 (score + getSingleWordComparisonScore g a.word)) acc =
        acc + (l.map (fun a => getSingleWordComparisonScore g a.word)).sum := by
  induction l with
  | nil => intro acc _ _ _; simp
  | cons a as ih =>
    intro acc hl h0 hmax
    have h1 := score_nonneg g a.word hg (hl a (List.mem_cons_self a as))
    have h2 := score_le g a.word hg (hl a (List.mem_cons_self a as))
    simp only [List.length_cons] at hmax
    push_cast at hmax
    simp only [List.foldl_cons, List.map_cons, List.sum_cons]
    rw [wrapInt32_of_range _ (by omega) (by omega),
      ih _ (fun b hb => hl b (List.mem_cons_of_mem _ hb)) (by omega) (by omega)]
    ring

/-- Value of `getScore` when the corpus is small enough for an `int`. -/
theorem getScore_small (g : List Char) (hg : IsWord g) (l : List wordCountStruct)
    (hl : ∀ a ∈ l, IsWord a.word) (hn : 15 * (l.length : Int) ≤ 2147483647) :
    getScore g l = (l.map (fun a => getSingleWordComparisonScore g a.word)).sum := by
  unfold getScore
  rw [getScore_loop g hg l 0 hl (le_refl 0) (by omega)]
  simp

/-- The accumulation loop of `getScore` over `n` copies of one answer. -/
theorem getScore_loop_replicate (g : List Char) (a : wordCountStruct) (n : Nat) :
    ∀ acc : Int,
      (List.replicate n a).foldl
          (fun score b => wrapInt32 (score + getSingleWordComparisonScore g b.word))
          (wrapInt32 acc) =
        wrapInt32 (acc + (n : Int) * getSingleWordComparisonScore g a.word) := by
  induction n with
  | zero => intro acc; simp
  | succ n ih =>
    intro acc
    simp only [List.replicate_succ, List.foldl_cons]
    rw [ih, add_assoc, wrapInt32_add_left]
    have e : acc + (getSingleWordComparisonScore g a.word +
        (n : Int) * getSingleWordComparisonScore g a.word) =
        acc + ((n + 1 : Nat) : Int) * getSingleWordComparisonScore g a.word := by
      push_cast
      ring
    rw [e]

theorem getScore_replicate (g : List Char) (a : wordCountStruct) (n : Nat) :
    getScore g (List.replicate n a) =
      wrapInt32 ((n : Int) * getSingleWordComparisonScore g a.word) := by
  have h := getScore_loop_replicate g a n 0
  have h0 : wrapInt32 0 = 0 := by decide
  rw [h0] at h
  unfold getScore
  rw [h]
  simp

theorem scoreSum_replicate (g : List Char) (a : wordCountStruct) (n : Nat) :
    ((List.replicate n a).map (fun b => getSingleWordComparisonScore g b.word)).sum =
      (n : Int) * getSingleWordComparisonScore g a.word := by
  induction n with
  | zero => simp
  | succ n ih =>
    simp only [List.replicate_succ, List.map_cons, List.sum_cons, ih]
    push_cast
    ring

/-- C7, as the program behaves: when `15 * n` fits an `int`, `getScore` is
the sum of the comparison scores of the guess against the `n` answers, hence
between 0 and `15 * n`; and it is 0 for an empty answer array. -/
theorem getScore_eq_sum (theGuess : List Char) (answerWords : List wordCountStruct)
    (hg : IsWord theGuess) (ha : ∀ a ∈ answerWords, IsWord a.word)
    (hn : 15 * (answerWords.length : Int) ≤ 2147483647) :
    getScore theGuess answerWords =
        (answerWords.map (fun a => getSingleWordComparisonScore theGuess a.word)).sum ∧
      0 ≤ getScore theGuess answerWords ∧
      getScore theGuess answerWords ≤ 15 * (answerWords.length : Int) ∧
      getScore theGuess [] = 0 := by
  have h := getScore_small theGuess hg answerWords ha hn
  have hb := scoreSum_bounds theGuess hg answerWords ha
  rw [h]
  exact ⟨rfl, hb.1, hb.2, rfl⟩

/-- C7 (amended) for the guess "apple" and the answers "apple", "amble",
"angle". -/
theorem getScore_eq_sum_witness :
    IsWord "apple".toList ∧
      (∀ a ∈ [(⟨"apple".toList, 0⟩ : wordCountStruct), ⟨"amble".toList, 0⟩,
        ⟨"angle".toList, 0⟩], IsWord a.word) ∧
      (getScore "apple".toList [⟨"apple".toList, 0⟩, ⟨"amble".toList, 0⟩, ⟨"angle".toList, 0⟩] =
          ([(⟨"apple".toList, 0⟩ : wordCountStruct), ⟨"amble".toList, 0⟩,
            ⟨"angle".toList, 0⟩].map
              (fun a => getSingleWordComparisonScore "apple".toList a.word)).sum ∧
        0 ≤ getScore "apple".toList
          [⟨"apple".toList, 0⟩, ⟨"amble".toList, 0⟩, ⟨"angle".toList, 0⟩] ∧
        getScore "apple".toList
            [⟨"apple".toList, 0⟩, ⟨"amble".toList, 0⟩, ⟨"angle".toList, 0⟩] ≤
          15 * (([(⟨"apple".toList, 0⟩ : wordCountStruct), ⟨"amble".toList, 0⟩,
            ⟨"angle".toList, 0⟩].length : Nat) : Int) ∧
        getScore "apple".toList [] = 0) :=
  ⟨by decide, by decide,
    getScore_eq_sum "apple".toList [⟨"apple".toList, 0⟩, ⟨"amble".toList, 0⟩, ⟨"angle".toList, 0⟩]
      (by decide) (by decide) (by decide)⟩

/-- C7, refuted as stated: against 143165577 copies of the answer "aaaaa"
the guess "aaaaa" has comparison scores that add up to 2147483655, which no
`int` holds; `getScore` returns -2147483641, neither the sum nor a
non-negative number. -/
theorem getScore_overflow :
    getScore "aaaaa".toList (List.replicate 143165577 ⟨"aaaaa".toList, 0⟩) = -2147483641 ∧
      ((List.replicate 143165577 (⟨"aaaaa".toList, 0⟩ : wordCountStruct)).map
        (fun a => getSingleWordComparisonScore "aaaaa".toList a.word)).sum = 2147483655 ∧
      ¬ (0 ≤ getScore "aaaaa".toList (List.replicate 143165577 ⟨"aaaaa".toList, 0⟩)) := by
  have hs : getSingleWordComparisonScore "aaaaa".toList "aaaaa".toList = 15 := by decide
  have h1 : getScore "aaaaa".toList (List.replicate 143165577 ⟨"aaaaa".toList, 0⟩) =
      -2147483641 := by
    rw [getScore_replicate]
    simp only [hs]
    unfold wrapInt32
    norm_num
  refine ⟨h1, ?_, ?_⟩
  · rw [scoreSum_replicate]
    simp only [hs]
    norm_num
  · rw [h1]
    norm_num

/-! ## The loops of `removeMatchingLetters` -/

/-- The same-position loop of `removeMatchingLetters` over the rest of the
two words. -/
theorem removeExact_loop (sb sa : List Char) :
    ∀ (pb pa : List Char), pb.length = pa.length → sb.length = sa.length →
      (List.range' pb.length sb.length).foldl removeExactStep
          { bestWordCopy := pb ++ sb, answerWord := pa ++ sa } =
        { bestWordCopy := pb ++ exactLeft sb sa, answerWord := pa ++ exactRight sb sa } := by
  induction sb generalizing sa with
  | nil =>
    intro pb pa _ h2
    cases sa with
    | nil => simp [exactLeft, exactRight]
    | cons y ys => simp at h2
  | cons x xs ih =>
    intro pb pa h1 h2
    cases sa with
    | nil => simp at h2
    | cons y ys =>
      simp only [List.length_cons, Nat.add_right_cancel_iff] at h2
      simp only [List.length_cons, List.range'_succ, List.foldl_cons]
      have hstep : removeExactStep
          { bestWordCopy := pb ++ x :: xs, answerWord := pa ++ y :: ys } pb.length =
          { bestWordCopy := (pb ++ [if x = y then BLANK else x]) ++ xs
            answerWord := (pa ++ [if x = y then BLANK else y]) ++ ys } := by
        unfold removeExactStep
        simp only [getD_append_cons]
        rw [h1, getD_append_cons, ← h1]
        by_cases hxy : x = y
        · simp only [hxy, if_true, set_append_cons]
          rw [h1, set_append_cons]
          simp
        · simp [hxy]
      rw [hstep]
      have hl : pb.length + 1 = (pb ++ [if x = y then BLANK else x]).length := by simp
      rw [hl, ih ys _ _ (by simp [h1]) h2]
      simp [exactLeft, exactRight]

/-- The inner loop of the second pass of `removeMatchingLetters`, run over
the rest `suf` of the answer word, when the best-word letter it looks for is
`x`. -/
theorem removeInner_eq (j : Nat) (bw : List Char) (x : Char) (hx : bw.getD j NUL = x)
    (suf : List Char) :
    ∀ pre : List Char,
      removeInner j suf.length pre.length { bestWordCopy := bw, answerWord := pre ++ suf } =
        { bestWordCopy := bw, answerWord := pre ++ blankFirst x suf } := by
  induction suf with
  | nil => intro pre; simp [removeInner, blankFirst]
  | cons y ys ih =>
    intro pre
    simp only [List.length_cons, removeInner, getD_append_cons, hx]
    by_cases hxy : x = y
    · subst hxy
      simp [set_append_cons, blankFirst]
    · have hl : pre.length + 1 = (pre ++ [y]).length := by simp
      have ha : pre ++ y :: ys = (pre ++ [y]) ++ ys := by simp
      rw [if_neg hxy, hl, ha, ih (pre ++ [y])]
      simp [hxy, blankFirst]

/-- The different-position loop of `removeMatchingLetters` over the rest
`suf` of the best word. -/
theorem removeRepos_loop (suf : List Char) :
    ∀ (pre aw : List Char), aw.length = WORD_LENGTH →
      (List.range' pre.length suf.length).foldl removeReposStep
          { bestWordCopy := pre ++ suf, answerWord := aw } =
        { bestWordCopy := pre ++ suf, answerWord := blankAll suf aw } := by
  induction suf with
  | nil => intro pre aw _; simp [blankAll]
  | cons x xs ih =>
    intro pre aw haw
    simp only [List.length_cons, List.range'_succ, List.foldl_cons]
    have hstep : removeReposStep { bestWordCopy := pre ++ x :: xs, answerWord := aw }
        pre.length = { bestWordCopy := pre ++ x :: xs, answerWord := blankFirst x aw } := by
      have h := removeInner_eq pre.length (pre ++ x :: xs) x (getD_append_cons pre x xs NUL)
        aw []
      simp only [List.nil_append, List.length_nil, haw] at h
      unfold removeReposStep
      exact h
    have hl : pre.length + 1 = (pre ++ [x]).length := by simp
    have ha : pre ++ x :: xs = (pre ++ [x]) ++ xs := by simp
    rw [hstep, hl, ha, ih (pre ++ [x]) (blankFirst x aw) (by rw [blankFirst_length]; exact haw)]
    simp [blankAll]

theorem removeAfterExact_eq (w a : List Char) (hw : IsWord w) (ha : IsWord a) :
    removeAfterExact w a =
      { bestWordCopy := exactLeft w a, answerWord := exactRight w a } := by
  unfold IsWord at hw ha
  have h1 := removeExact_loop w a [] [] rfl (by rw [hw, ha])
  simp only [List.length_nil, List.nil_append, hw] at h1
  unfold removeAfterExact
  simp only [List.range_eq_range', h1]

/-- The discounted answer in terms of the auxiliary functions. -/
theorem removeMatchingLettersWord_eq (w a : List Char) (hw : IsWord w) (ha : IsWord a) :
    removeMatchingLettersWord w a = blankAll (exactLeft w a) (exactRight w a) := by
  have h2 := removeRepos_loop (exactLeft w a) [] (exactRight w a)
    (by rw [exactRight_length]; exact ha)
  have hl : (exactLeft w a).length = WORD_LENGTH := by rw [exactLeft_length]; exact hw
  simp only [List.length_nil, List.nil_append, hl] at h2
  unfold removeMatchingLettersWord
  rw [removeAfterExact_eq w a hw ha]
  simp only [List.range_eq_range', h2]

theorem compareAfterExact_comparisonWord (o c : List Char) (ho : IsWord o) (hc : IsWord c) :
    (compareAfterExact o c).comparisonWord = exactRight o c := by
  unfold IsWord at ho hc
  have h1 := exact_loop o c [] [] 0 rfl (by rw [ho, hc])
  simp only [List.length_nil, List.nil_append, ho] at h1
  unfold compareAfterExact
  simp only [List.range_eq_range', h1]

theorem blankAll_length (xs cw : List Char) : (blankAll xs cw).length = cw.length := by
  induction xs generalizing cw with
  | nil => rfl
  | cons x xs ih =>
    simp only [blankAll, List.foldl_cons] at ih ⊢
    rw [ih, blankFirst_length]

theorem removeMatchingLettersWord_isWord (w a : List Char) (hw : IsWord w) (ha : IsWord a) :
    IsWord (removeMatchingLettersWord w a) := by
  unfold IsWord
  rw [removeMatchingLettersWord_eq w a hw ha, blankAll_length, exactRight_length]
  exact ha

/-! ## Letter counts after discounting -/

theorem letters_blankAll (xs : List Char) :
    ∀ cw : List Char, letters (blankAll xs cw) = letters cw - letters xs := by
  induction xs with
  | nil => intro cw; simp [blankAll, letters]
  | cons x xs ih =>
    intro cw
    have hu : blankAll (x :: xs) cw = blankAll xs (blankFirst x cw) := rfl
    rw [hu, ih]
    by_cases hx : x = BLANK
    · rw [hx, blankFirst_blank, letters_cons_blank]
    · rw [letters_blankFirst x hx, letters_cons_of_ne x xs hx, Multiset.sub_cons]

/-- The exact matches take the same letters out of both words. -/
theorem letters_exact (o c : List Char) :
    ∃ m : Multiset Char, letters o = letters (exactLeft o c) + m ∧
      letters c = letters (exactRight o c) + m := by
  induction o generalizing c with
  | nil => cases c <;> exact ⟨0, by simp [exactLeft], by simp [exactRight]⟩
  | cons x xs ih =>
    cases c with
    | nil => exact ⟨0, by simp [exactLeft], by simp [exactRight]⟩
    | cons y ys =>
      obtain ⟨m, h1, h2⟩ := ih ys
      simp only [exactLeft, exactRight]
      by_cases hxy : x = y
      · subst hxy
        simp only [if_true, letters_cons_blank]
        by_cases hx : x = BLANK
        · exact ⟨m, by rw [hx, letters_cons_blank, h1], by rw [hx, letters_cons_blank, h2]⟩
        · refine ⟨x ::ₘ m, ?_, ?_⟩
          · rw [letters_cons_of_ne x xs hx, h1, Multiset.add_cons]
          · rw [letters_cons_of_ne x ys hx, h2, Multiset.add_cons]
      · simp only [hxy, if_false]
        refine ⟨m, ?_, ?_⟩
        · by_cases hx : x = BLANK
          · rw [hx, letters_cons_blank, letters_cons_blank, h1]
          · rw [letters_cons_of_ne x xs hx, letters_cons_of_ne x _ hx, h1, Multiset.cons_add]
        · by_cases hy : y = BLANK
          · rw [hy, letters_cons_blank, letters_cons_blank, h2]
          · rw [letters_cons_of_ne y ys hy, letters_cons_of_ne y _ hy, h2, Multiset.cons_add]

theorem count_letters (x : Char) (hx : x ≠ BLANK) (w : List Char) :
    Multiset.count x (letters w) = w.count x := by
  unfold letters
  rw [Multiset.coe_count, List.count_filter]
  simpa using hx

/-- Every letter occurs in the discounted answer as often as the answer has
it in excess of the claimed word. -/
theorem count_removeMatchingLettersWord (w a : List Char) (hw : IsWord w) (ha : IsWord a)
    (x : Char) (hx : x ≠ BLANK) :
    (removeMatchingLettersWord w a).count x = a.count x - w.count x := by
  obtain ⟨m, h1, h2⟩ := letters_exact w a
  have e1 := congrArg (Multiset.count x) h1
  have e2 := congrArg (Multiset.count x) h2
  rw [Multiset.count_add, count_letters x hx] at e1 e2
  rw [← count_letters x hx, removeMatchingLettersWord_eq w a hw ha, letters_blankAll,
    Multiset.count_sub]
  omega

theorem blank_not_alpha : BLANK.isAlpha = false := by decide

theorem ne_blank_of_mem_alphaWord {w : List Char} (hw : IsAlphaWord w) {x : Char}
    (hx : x ∈ w) : x ≠ BLANK := by
  intro h
  have := hw.2 x hx
  rw [h, blank_not_alpha] at this
  exact Bool.noConfusion this

/-- A claimed word of alphabetic letters scores nothing against a discounted
answer in which none of its letters is left over. -/
theorem score_removeMatchingLettersWord (w a : List Char) (hw : IsAlphaWord w) (ha : IsWord a)
    (hcount : ∀ x ∈ w, a.count x ≤ w.count x) :
    getSingleWordComparisonScore w (removeMatchingLettersWord w a) = 0 := by
  apply score_eq_zero_of_disjoint w _ hw.1 (removeMatchingLettersWord_isWord w a hw.1 ha)
  intro x hx
  have hxb := ne_blank_of_mem_alphaWord hw hx
  have hc := count_removeMatchingLettersWord w a hw.1 ha x hxb
  have hle := hcount x hx
  apply List.count_eq_zero.1
  omega

/-! ## Discounting and the comparison -/

/-- C9, as the program behaves: when no letter of the claimed word `w` occurs
more often in the answer at index `i` than in `w`, the discounted answer at
index `i` earns `w` a comparison score of 0. -/
theorem discounted_score_zero (w : List Char) (answers : List wordCountStruct) (i : Nat)
    (a : wordCountStruct) (hw : IsAlphaWord w) (ha : ∀ b ∈ answers, IsAlphaWord b.word)
    (hi : answers[i]? = some a) (hcount : ∀ x ∈ w, a.word.count x ≤ w.count x) :
    ∃ d : wordCountStruct, (removeMatchingLetters answers w)[i]? = some d ∧
      getSingleWordComparisonScore w d.word = 0 := by
  have hmem : a ∈ answers := List.getElem?_mem hi
  have hs := score_removeMatchingLettersWord w a.word hw (ha a hmem).1 hcount
  refine ⟨⟨removeMatchingLettersWord w a.word, a.score⟩, ?_, ?_⟩
  · unfold removeMatchingLetters
    rw [List.getElem?_map, hi, Option.map_some']
  · dsimp only
    exact hs

/-- C9 (amended) for the claimed word "apple" and the answers "amble",
"angle", at index 1. -/
theorem discounted_score_zero_witness :
    IsAlphaWord "apple".toList ∧
      (∀ b ∈ [(⟨"amble".toList, 0⟩ : wordCountStruct), ⟨"angle".toList, 0⟩],
        IsAlphaWord b.word) ∧
      [(⟨"amble".toList, 0⟩ : wordCountStruct), ⟨"angle".toList, 0⟩][1]? =
        some ⟨"angle".toList, 0⟩ ∧
      (∀ x ∈ "apple".toList, "angle".toList.count x ≤ "apple".toList.count x) ∧
      ∃ d : wordCountStruct,
        (removeMatchingLetters [⟨"amble".toList, 0⟩, ⟨"angle".toList, 0⟩] "apple".toList)[1]? =
          some d ∧
        getSingleWordComparisonScore "apple".toList d.word = 0 :=
  ⟨by decide, by decide, by decide, by decide,
    discounted_score_zero "apple".toList [⟨"amble".toList, 0⟩, ⟨"angle".toList, 0⟩] 1
      ⟨"angle".toList, 0⟩ (by decide) (by decide) (by decide) (by decide)⟩

/-- C9, refuted as stated: the answer "aafgh" discounted by "abcde" is
" afgh", which keeps one `a`, and "abcde" scores 1 against it. -/
theorem discounted_score_ne_zero :
    IsAlphaWord "abcde".toList ∧ IsAlphaWord "aafgh".toList ∧
      removeMatchingLetters [⟨"aafgh".toList, 0⟩] "abcde".toList = [⟨" afgh".toList, 0⟩] ∧
      getSingleWordComparisonScore "abcde".toList " afgh".toList = 1 := by
  decide

/-- C10: for a claimed word `w` and answers of five letters,
`removeMatchingLetters` leaves in place of every answer `a` the comparator's
working copy `comparisonWord` at the end of
`getSingleWordComparisonScore(w, a)`, the score field untouched; and already
after its same-position loop the answer word is the comparator's working copy
after the exact-match loop. -/
theorem removeMatchingLetters_eq_comparisonWord (w : List Char)
    (answers : List wordCountStruct) (hw : IsWord w) (ha : ∀ a ∈ answers, IsWord a.word) :
    removeMatchingLetters answers w =
        answers.map (fun a =>
          ({ word := (compareFinalState w a.word).comparisonWord, score := a.score } :
            wordCountStruct)) ∧
      ∀ a ∈ answers,
        (removeAfterExact w a.word).answerWord = (compareAfterExact w a.word).comparisonWord ∧
        removeMatchingLettersWord w a.word = (compareFinalState w a.word).comparisonWord := by
  have hword : ∀ a ∈ answers,
      removeMatchingLettersWord w a.word = (compareFinalState w a.word).comparisonWord := by
    intro a hmem
    rw [removeMatchingLettersWord_eq w a.word hw (ha a hmem),
      comparisonWord_eq w a.word hw (ha a hmem)]
  refine ⟨?_, ?_⟩
  · unfold removeMatchingLetters
    apply List.map_congr_left
    intro a hmem
    rw [hword a hmem]
  · intro a hmem
    refine ⟨?_, hword a hmem⟩
    rw [removeAfterExact_eq w a.word hw (ha a hmem),
      compareAfterExact_comparisonWord w a.word hw (ha a hmem)]

/-- C10 for the claimed word "aabbb" and the answers "ababa", "apple". -/
theorem removeMatchingLetters_eq_comparisonWord_witness :
    IsWord "aabbb".toList ∧
      (∀ a ∈ [(⟨"ababa".toList, 0⟩ : wordCountStruct), ⟨"apple".toList, 0⟩], IsWord a.word) ∧
      (removeMatchingLetters [⟨"ababa".toList, 0⟩, ⟨"apple".toList, 0⟩] "aabbb".toList =
          [(⟨"ababa".toList, 0⟩ : wordCountStruct), ⟨"apple".toList, 0⟩].map (fun a =>
            ({ word := (compareFinalState "aabbb".toList a.word).comparisonWord
               score := a.score } : wordCountStruct)) ∧
        ∀ a ∈ [(⟨"ababa".toList, 0⟩ : wordCountStruct), ⟨"apple".toList, 0⟩],
          (removeAfterExact "aabbb".toList a.word).answerWord =
              (compareAfterExact "aabbb".toList a.word).comparisonWord ∧
            removeMatchingLettersWord "aabbb".toList a.word =
              (compareFinalState "aabbb".toList a.word).comparisonWord) :=
  ⟨by decide, by decide,
    removeMatchingLetters_eq_comparisonWord "aabbb".toList
      [⟨"ababa".toList, 0⟩, ⟨"apple".toList, 0⟩] (by decide) (by decide)⟩

/-! ## The sort -/

theorem qsortInsert_perm (cmp : wordCountStruct → wordCountStruct → Int) (x : wordCountStruct)
    (l : List wordCountStruct) : (qsortInsert cmp x l).Perm (x :: l) := by
  induction l with
  | nil => exact List.Perm.refl _
  | cons y ys ih =>
    unfold qsortInsert
    split
    · exact List.Perm.refl _
    · exact (List.Perm.cons y ih).trans (List.Perm.swap x y ys)

theorem qsort_perm (cmp : wordCountStruct → wordCountStruct → Int)
    (l : List wordCountStruct) : (qsort cmp l).Perm l := by
  induction l with
  | nil => exact List.Perm.refl _
  | cons x xs ih =>
    unfold qsort
    exact (qsortInsert_perm cmp x (qsort cmp xs)).trans (List.Perm.cons x ih)

/-- Inserting into a sorted array keeps it sorted, when the comparison is
total and transitive on the elements at hand. -/
theorem qsortInsert_pairwise (cmp : wordCountStruct → wordCountStruct → Int)
    (P : wordCountStruct → Prop)
    (htot : ∀ a b, P a → P b → cmp a b ≤ 0 ∨ cmp b a ≤ 0)
    (htr : ∀ a b c, P a → P b → P c → cmp a b ≤ 0 → cmp b c ≤ 0 → cmp a c ≤ 0)
    (x : wordCountStruct) (hx : P x) (l : List wordCountStruct) (hl : ∀ y ∈ l, P y)
    (hs : l.Pairwise (fun a b => cmp a b ≤ 0)) :
    (qsortInsert cmp x l).Pairwise (fun a b => cmp a b ≤ 0) := by
  induction l with
  | nil => simp [qsortInsert]
  | cons y ys ih =>
    have hy : P y := hl y (List.mem_cons_self y ys)
    have hys : ∀ z ∈ ys, P z := fun z hz => hl z (List.mem_cons_of_mem _ hz)
    rw [List.pairwise_cons] at hs
    unfold qsortInsert
    by_cases hxy : cmp x y ≤ 0
    · rw [if_pos hxy]
      refine List.Pairwise.cons ?_ (List.Pairwise.cons hs.1 hs.2)
      intro z hz
      rcases List.mem_cons.1 hz with hz | hz
      · rw [hz]; exact hxy
      · exact htr x y z hx hy (hys z hz) hxy (hs.1 z hz)
    · rw [if_neg hxy]
      refine List.Pairwise.cons ?_ (ih hys hs.2)
      intro z hz
      rcases List.mem_cons.1 ((qsortInsert_perm cmp x ys).mem_iff.1 hz) with hz | hz
      · rw [hz]
        rcases htot x y hx hy with h | h
        · exact absurd h hxy
        · exact h
      · exact hs.1 z hz

theorem qsort_pairwise (cmp : wordCountStruct → wordCountStruct → Int)
    (P : wordCountStruct → Prop)
    (htot : ∀ a b, P a → P b → cmp a b ≤ 0 ∨ cmp b a ≤ 0)
    (htr : ∀ a b c, P a → P b → P c → cmp a b ≤ 0 → cmp b c ≤ 0 → cmp a c ≤ 0)
    (l : List wordCountStruct) (hl : ∀ y ∈ l, P y) :
    (qsort cmp l).Pairwise (fun a b => cmp a b ≤ 0) := by
  induction l with
  | nil => simp [qsort]
  | cons x xs ih =>
    unfold qsort
    have hxs : ∀ y ∈ xs, P y := fun y hy => hl y (List.mem_cons_of_mem _ hy)
    exact qsortInsert_pairwise cmp P htot htr x (hl x (List.mem_cons_self x xs)) _
      (fun y hy => hxs y ((qsort_perm cmp xs).mem_iff.1 hy)) (ih hxs)

/-! ## `strcmp` and `compareFunction` -/

theorem toNat_injective {x y : Char} (h : x.toNat = y.toNat) : x = y := by
  rw [← Char.ofNat_toNat x, ← Char.ofNat_toNat y, h]

theorem strcmp_antisymm (a : List Char) : ∀ b : List Char, strcmp a b = - strcmp b a := by
  induction a with
  | nil =>
    intro b
    cases b with
    | nil => simp [strcmp]
    | cons y ys => simp [strcmp]
  | cons x xs ih =>
    intro b
    cases b with
    | nil => simp [strcmp]
    | cons y ys =>
      unfold strcmp
      by_cases hxy : x = y
      · rw [if_pos hxy, if_pos hxy.symm, ih ys]
      · rw [if_neg hxy, if_neg (Ne.symm hxy)]
        ring

theorem strcmp_total (a b : List Char) : strcmp a b ≤ 0 ∨ strcmp b a ≤ 0 := by
  have h := strcmp_antisymm a b
  omega

/-- On strings of one length `strcmp a b ≤ 0` is transitive. -/
theorem strcmp_trans (a : List Char) :
    ∀ b c : List Char, a.length = b.length → b.length = c.length →
      strcmp a b ≤ 0 → strcmp b c ≤ 0 → strcmp a c ≤ 0 := by
  induction a with
  | nil =>
    intro b c h1 h2 _ _
    cases b with
    | nil =>
      cases c with
      | nil => simp [strcmp]
      | cons z zs => simp at h2
    | cons y ys => simp at h1
  | cons x xs ih =>
    intro b c h1 h2 hab hbc
    cases b with
    | nil => simp at h1
    | cons y ys =>
      cases c with
      | nil => simp at h2
      | cons z zs =>
        simp only [List.length_cons, Nat.add_right_cancel_iff] at h1 h2
        unfold strcmp at hab hbc ⊢
        by_cases hxy : x = y
        · subst hxy
          rw [if_pos rfl] at hab
          by_cases hxz : x = z
          · subst hxz
            rw [if_pos rfl] at hbc ⊢
            exact ih ys zs h1 h2 hab hbc
          · rw [if_neg hxz] at hbc ⊢
            exact hbc
        · rw [if_neg hxy] at hab
          by_cases hyz : y = z
          · subst hyz
            rw [if_neg hxy]
            exact hab
          · rw [if_neg hyz] at hbc
            have hne : x ≠ z := by
              intro hxz
              subst hxz
              exact hxy (toNat_injective (by omega))
            rw [if_neg hne]
            omega

/-- The order of characters is the order of their codes. -/
theorem char_lt_iff (x y : Char) : x < y ↔ x.toNat < y.toNat := Iff.rfl

/-- On strings of one length `strcmp` is negative exactly when the first
string is lexicographically smaller. -/
theorem strcmp_neg_iff_lt (a : List Char) :
    ∀ b : List Char, a.length = b.length → (strcmp a b < 0 ↔ a < b) := by
  induction a with
  | nil =>
    intro b h
    cases b with
    | nil => simp [strcmp]
    | cons y ys => simp at h
  | cons x xs ih =>
    intro b h
    cases b with
    | nil => simp at h
    | cons y ys =>
      simp only [List.length_cons, Nat.add_right_cancel_iff] at h
      unfold strcmp
      by_cases hxy : x = y
      · subst hxy
        rw [if_pos rfl, ih ys h]
        exact (List.Lex.cons_iff).symm
      · rw [if_neg hxy]
        constructor
        · intro hlt
          exact List.Lex.rel ((char_lt_iff x y).2 (by omega))
        · intro hlt
          cases hlt with
          | cons h1 => exact absurd rfl hxy
          | rel h1 => have := (char_lt_iff x y).1 h1; omega

theorem strcmp_le_iff_le (a b : List Char) (h : a.length = b.length) :
    strcmp a b ≤ 0 ↔ a ≤ b := by
  have h1 := strcmp_antisymm a b
  have h2 := strcmp_neg_iff_lt b a h.symm
  have h3 : a ≤ b ↔ ¬ b < a := not_lt.symm
  rw [h3, ← h2]
  omega

theorem compareFunction_le_iff (a b : wordCountStruct) (ha : InRange a) (hb : InRange b) :
    compareFunction a b ≤ 0 ↔
      b.score < a.score ∨ (a.score = b.score ∧ strcmp a.word b.word ≤ 0) := by
  obtain ⟨_, ha1, ha2⟩ := ha
  obtain ⟨_, hb1, hb2⟩ := hb
  unfold compareFunction
  by_cases h : a.score = b.score
  · simp only [h, ne_eq, not_true_eq_false, if_false, lt_self_iff_false, true_and, false_or]
  · simp only [ne_eq, h, not_false_eq_true, if_true, false_and, or_false]
    rw [wrapInt32_of_range _ (by omega) (by omega)]
    omega

theorem compareFunction_total (a b : wordCountStruct) (ha : InRange a) (hb : InRange b) :
    compareFunction a b ≤ 0 ∨ compareFunction b a ≤ 0 := by
  rw [compareFunction_le_iff a b ha hb, compareFunction_le_iff b a hb ha]
  have h := strcmp_total a.word b.word
  omega

theorem compareFunction_trans (a b c : wordCountStruct) (ha : InRange a) (hb : InRange b)
    (hc : InRange c) (hab : compareFunction a b ≤ 0) (hbc : compareFunction b c ≤ 0) :
    compareFunction a c ≤ 0 := by
  rw [compareFunction_le_iff a b ha hb] at hab
  rw [compareFunction_le_iff b c hb hc] at hbc
  rw [compareFunction_le_iff a c ha hc]
  rcases hab with hab | ⟨hab1, hab2⟩
  · rcases hbc with hbc | ⟨hbc1, _⟩
    · left; omega
    · left; omega
  · rcases hbc with hbc | ⟨hbc1, hbc2⟩
    · left; omega
    · right
      refine ⟨by omega, strcmp_trans a.word b.word c.word ?_ ?_ hab2 hbc2⟩
      · rw [ha.1, hb.1]
      · rw [hb.1, hc.1]

/-! ## The top-score scan -/

/-- The scan stops at the first element whose score differs from the top
score; when there is none it runs off the array. -/
theorem topScan_eq (t : Int) (l : List wordCountStruct) :
    ∀ i : Nat, topScan t l i =
      if ∀ w ∈ l, w.score = t then Except.error Fault.outOfBounds
      else Except.ok (i + (l.takeWhile (fun w => decide (w.score = t))).length) := by
  induction l with
  | nil => intro i; simp [topScan]
  | cons w ws ih =>
    intro i
    unfold topScan
    by_cases hw : w.score = t
    · rw [if_pos hw, ih (i + 1)]
      by_cases hall : ∀ v ∈ ws, v.score = t
      · have hall2 : ∀ v ∈ w :: ws, v.score = t := by
          intro v hv
          rcases List.mem_cons.1 hv with h | h
          · rw [h]; exact hw
          · exact hall v h
        rw [if_pos hall, if_pos hall2]
      · have hall2 : ¬ ∀ v ∈ w :: ws, v.score = t := fun h =>
          hall (fun v hv => h v (List.mem_cons_of_mem _ hv))
        rw [if_neg hall, if_neg hall2, List.takeWhile_cons_of_pos (by simpa using hw)]
        simp only [List.length_cons]
        congr 1
        omega
    · have hall2 : ¬ ∀ v ∈ w :: ws, v.score = t := fun h => hw (h w (List.mem_cons_self w ws))
      rw [if_neg hw, if_neg hall2, List.takeWhile_cons_of_neg (by simpa using hw)]
      simp

/-- In an array sorted by descending score the elements with the top score
are the leading ones. -/
theorem takeWhile_eq_filter_of_sorted (t : Int) (l : List wordCountStruct)
    (hs : l.Pairwise (fun a b => b.score ≤ a.score)) (hmax : ∀ w ∈ l, w.score ≤ t) :
    l.takeWhile (fun w => decide (w.score = t)) = l.filter (fun w => decide (w.score = t)) := by
  induction l with
  | nil => rfl
  | cons w ws ih =>
    rw [List.pairwise_cons] at hs
    have hws : ∀ v ∈ ws, v.score ≤ t := fun v hv => hmax v (List.mem_cons_of_mem _ hv)
    by_cases hw : w.score = t
    · rw [List.takeWhile_cons_of_pos (by simpa using hw),
        List.filter_cons_of_pos (by simpa using hw), ih hs.2 hws]
    · rw [List.takeWhile_cons_of_neg (by simpa using hw),
        List.filter_cons_of_neg (by simpa using hw)]
      have hlt : w.score < t := lt_of_le_of_ne (hmax w (List.mem_cons_self w ws)) hw
      symm
      rw [List.filter_eq_nil_iff]
      intro v hv
      have := hs.1 v hv
      simp only [decide_eq_true_eq]
      omega

theorem take_length_takeWhile (p : wordCountStruct → Bool) (l : List wordCountStruct) :
    l.take (l.takeWhile p).length = l.takeWhile p := by
  induction l with
  | nil => rfl
  | cons w ws ih =>
    by_cases hw : p w = true
    · rw [List.takeWhile_cons_of_pos hw, List.length_cons, List.take_succ_cons, ih]
    · rw [List.takeWhile_cons_of_neg hw]
      rfl

/-- What the selection returns when the scan meets a score other than the
top score. -/
theorem selectTopWords_eq (first : wordCountStruct) (rest : List wordCountStruct)
    (hne : ¬ ∀ w ∈ first :: rest, w.score = first.score) :
    selectTopWords (first :: rest) =
      Except.ok
        { allWords := first :: rest
          bestWords := ((first :: rest).takeWhile (fun w => decide (w.score = first.score))).map
            (fun w => { word := w.word, score := first.score })
          numberOfTopScoringWords :=
            ((first :: rest).takeWhile (fun w => decide (w.score = first.score))).length } := by
  unfold selectTopWords
  simp only [topScan_eq, if_neg hne, Nat.zero_add, take_length_takeWhile]

/-- What the selection returns on an array sorted by `compareFunction` whose
scores are in range and not all equal: the words with the greatest score, in
the order of `strcmp`. -/
theorem selectTopWords_sorted (sorted : List wordCountStruct)
    (hr : ∀ w ∈ sorted, InRange w)
    (hs : sorted.Pairwise (fun a b => compareFunction a b ≤ 0))
    (hdiff : ∃ c ∈ sorted, ∃ d ∈ sorted, c.score ≠ d.score) :
    ∃ (r : TopWords) (topScore : Int),
      selectTopWords sorted = Except.ok r ∧
      r.allWords = sorted ∧
      (∀ w ∈ sorted, w.score ≤ topScore) ∧
      (∃ w ∈ sorted, w.score = topScore) ∧
      r.bestWords = (sorted.filter (fun w => decide (w.score = topScore))).map
        (fun w => { word := w.word, score := topScore }) ∧
      r.bestWords.Pairwise (fun a b => strcmp a.word b.word ≤ 0) ∧
      r.numberOfTopScoringWords = r.bestWords.length := by
  cases sorted with
  | nil =>
    obtain ⟨c, hc, _⟩ := hdiff
    simp at hc
  | cons first rest =>
    have hsc : (first :: rest).Pairwise (fun a b => b.score ≤ a.score) := by
      refine List.Pairwise.imp_of_mem ?_ hs
      intro a b ha hb hab
      rw [compareFunction_le_iff a b (hr a ha) (hr b hb)] at hab
      omega
    have hmax : ∀ w ∈ first :: rest, w.score ≤ first.score := by
      intro w hw
      rcases List.mem_cons.1 hw with h | h
      · rw [h]
      · exact (List.pairwise_cons.1 hsc).1 w h
    have hne : ¬ ∀ w ∈ first :: rest, w.score = first.score := by
      intro hall
      obtain ⟨c, hc, d, hd, hcd⟩ := hdiff
      exact hcd ((hall c hc).trans (hall d hd).symm)
    refine ⟨_, first.score, selectTopWords_eq first rest hne, rfl, hmax,
      ⟨first, List.mem_cons_self first rest, rfl⟩, ?_, ?_, ?_⟩
    · simp only
      rw [takeWhile_eq_filter_of_sorted first.score (first :: rest) hsc hmax]
    · simp only
      rw [takeWhile_eq_filter_of_sorted first.score (first :: rest) hsc hmax, List.pairwise_map]
      have hf : ((first :: rest).filter (fun w => decide (w.score = first.score))).Pairwise
          (fun a b => compareFunction a b ≤ 0) := List.Pairwise.filter _ hs
      refine List.Pairwise.imp_of_mem ?_ hf
      intro a b ha hb hab
      have ha1 := List.mem_filter.1 ha
      have hb1 := List.mem_filter.1 hb
      have hae : a.score = first.score := by simpa using ha1.2
      have hbe : b.score = first.score := by simpa using hb1.2
      rw [compareFunction_le_iff a b (hr a ha1.1) (hr b hb1.1)] at hab
      rcases hab with h | h
      · omega
      · exact h.2
    · simp only [List.length_map]

/-- The selected words are in lexicographic order. -/
theorem bestWords_pairwise_le (sorted : List wordCountStruct) (t : Int)
    (hr : ∀ w ∈ sorted, InRange w)
    (hs : sorted.Pairwise (fun a b => compareFunction a b ≤ 0)) :
    (((sorted.filter (fun w => decide (w.score = t))).map
      (fun w => ({ word := w.word, score := t } : wordCountStruct))).map
        (fun w => w.word)).Pairwise (fun a b => a ≤ b) := by
  rw [List.map_map, List.pairwise_map]
  have hf : (sorted.filter (fun w => decide (w.score = t))).Pairwise
      (fun a b => compareFunction a b ≤ 0) := List.Pairwise.filter _ hs
  refine List.Pairwise.imp_of_mem ?_ hf
  intro a b ha hb hab
  have ha1 := List.mem_filter.1 ha
  have hb1 := List.mem_filter.1 hb
  have hae : a.score = t := by simpa using ha1.2
  have hbe : b.score = t := by simpa using hb1.2
  rw [compareFunction_le_iff a b (hr a ha1.1) (hr b hb1.1)] at hab
  have hlen : a.word.length = b.word.length := (hr a ha1.1).1.trans (hr b hb1.1).1.symm
  rcases hab with h | h
  · omega
  · exact (strcmp_le_iff_le a.word b.word hlen).1 h.2

/-- Two arrays that hold the same scored words and are both sorted by
`compareFunction` lead to the same selection. -/
theorem selectTopWords_unique (s1 s2 : List wordCountStruct) (hp : s1.Perm s2)
    (hr : ∀ w ∈ s1, InRange w)
    (h1 : s1.Pairwise (fun a b => compareFunction a b ≤ 0))
    (h2 : s2.Pairwise (fun a b => compareFunction a b ≤ 0))
    (hdiff : ∃ c ∈ s1, ∃ d ∈ s1, c.score ≠ d.score) :
    ∃ r1 r2 : TopWords, selectTopWords s1 = Except.ok r1 ∧ selectTopWords s2 = Except.ok r2 ∧
      r1.bestWords = r2.bestWords ∧
      r1.numberOfTopScoringWords = r2.numberOfTopScoringWords := by
  have hr2 : ∀ w ∈ s2, InRange w := fun w hw => hr w (hp.mem_iff.2 hw)
  have hdiff2 : ∃ c ∈ s2, ∃ d ∈ s2, c.score ≠ d.score := by
    obtain ⟨c, hc, d, hd, hcd⟩ := hdiff
    exact ⟨c, hp.mem_iff.1 hc, d, hp.mem_iff.1 hd, hcd⟩
  obtain ⟨r1, t1, e1, _, m1, ⟨w1, hw1, a1⟩, b1, _, n1⟩ := selectTopWords_sorted s1 hr h1 hdiff
  obtain ⟨r2, t2, e2, _, m2, ⟨w2, hw2, a2⟩, b2, _, n2⟩ := selectTopWords_sorted s2 hr2 h2 hdiff2
  have ht : t1 = t2 := by
    have h12 := m2 w1 (hp.mem_iff.1 hw1)
    have h21 := m1 w2 (hp.mem_iff.2 hw2)
    omega
  subst ht
  have hb : r1.bestWords = r2.bestWords := by
    have hw : r1.bestWords.map (fun w => w.word) = r2.bestWords.map (fun w => w.word) := by
      rw [b1, b2]
      apply List.eq_of_perm_of_sorted (r := fun a b : List Char => a ≤ b)
      · exact (((hp.filter _).map _).map _)
      · exact bestWords_pairwise_le s1 t1 hr h1
      · exact bestWords_pairwise_le s2 t1 hr2 h2
    have hre : ∀ s : List wordCountStruct,
        (s.filter (fun w => decide (w.score = t1))).map
          (fun w => ({ word := w.word, score := t1 } : wordCountStruct)) =
        (((s.filter (fun w => decide (w.score = t1))).map
          (fun w => ({ word := w.word, score := t1 } : wordCountStruct))).map
            (fun w => w.word)).map (fun x => ({ word := x, score := t1 } : wordCountStruct)) := by
      intro s
      rw [List.map_map, List.map_map]
      rfl
    rw [b1, b2, hre s1, hre s2, ← b1, ← b2, hw]
  exact ⟨r1, r2, e1, e2, hb, by rw [n1, n2, hb]⟩
/-! ## `findScoresAndTopWords` -/

theorem getScore_inRange (g : List Char) (hg : IsWord g) (l : List wordCountStruct)
    (hl : ∀ a ∈ l, IsWord a.word) (hn : 15 * (l.length : Int) ≤ 2147483647) :
    0 ≤ getScore g l ∧ getScore g l ≤ 2147483647 := by
  have h := getScore_small g hg l hl hn
  have hb := scoreSum_bounds g hg l hl
  rw [h]
  omega

theorem mem_scoreAllWords (answerWords allWords : List wordCountStruct) (s : wordCountStruct) :
    s ∈ scoreAllWords answerWords allWords ↔
      ∃ c ∈ allWords, s = ⟨c.word, getScore c.word answerWords⟩ := by
  unfold scoreAllWords
  rw [List.mem_map]
  constructor
  · rintro ⟨c, hc, rfl⟩
    exact ⟨c, hc, rfl⟩
  · rintro ⟨c, hc, rfl⟩
    exact ⟨c, hc, rfl⟩

/-- The selection made by `findScoresAndTopWords` when the corpus fits the
`int` range and the candidates do not all have the same score. -/
theorem findScoresAndTopWords_spec (answerWords allWords : List wordCountStruct)
    (hall : ∀ c ∈ allWords, IsWord c.word) (hans : ∀ a ∈ answerWords, IsWord a.word)
    (hn : 15 * (answerWords.length : Int) ≤ 2147483647)
    (hdiff : ∃ c ∈ allWords, ∃ d ∈ allWords,
      getScore c.word answerWords ≠ getScore d.word answerWords) :
    ∃ (r : TopWords) (topScore : Int),
      findScoresAndTopWords answerWords allWords = Except.ok r ∧
      (∀ c ∈ allWords, getScore c.word answerWords ≤ topScore) ∧
      (∃ c ∈ allWords, getScore c.word answerWords = topScore) ∧
      r.bestWords.Perm
        ((allWords.filter (fun c => decide (getScore c.word answerWords = topScore))).map
          (fun c => ({ word := c.word, score := topScore } : wordCountStruct))) ∧
      r.bestWords.Pairwise (fun a b => strcmp a.word b.word ≤ 0) ∧
      r.bestWords.Pairwise (fun a b => a.word ≤ b.word) ∧
      r.numberOfTopScoringWords = r.bestWords.length := by
  have hperm := qsort_perm compareFunction (scoreAllWords answerWords allWords)
  have hmem : ∀ c ∈ allWords, (⟨c.word, getScore c.word answerWords⟩ : wordCountStruct) ∈
      qsort compareFunction (scoreAllWords answerWords allWords) := fun c hc =>
    hperm.mem_iff.2 ((mem_scoreAllWords answerWords allWords _).2 ⟨c, hc, rfl⟩)
  have hrs : ∀ w ∈ scoreAllWords answerWords allWords, InRange w := by
    intro w hw
    obtain ⟨c, hc, rfl⟩ := (mem_scoreAllWords answerWords allWords w).1 hw
    have hb := getScore_inRange c.word (hall c hc) answerWords hans hn
    exact ⟨hall c hc, hb.1, hb.2⟩
  have hr : ∀ w ∈ qsort compareFunction (scoreAllWords answerWords allWords), InRange w :=
    fun w hw => hrs w (hperm.mem_iff.1 hw)
  have hs := qsort_pairwise compareFunction InRange compareFunction_total compareFunction_trans
    (scoreAllWords answerWords allWords) hrs
  have hd : ∃ c ∈ qsort compareFunction (scoreAllWords answerWords allWords),
      ∃ d ∈ qsort compareFunction (scoreAllWords answerWords allWords), c.score ≠ d.score := by
    obtain ⟨c, hc, d, hd, hcd⟩ := hdiff
    exact ⟨_, hmem c hc, _, hmem d hd, hcd⟩
  obtain ⟨r, topScore, h1, _, h3, h4, h5, h6, h7⟩ := selectTopWords_sorted _ hr hs hd
  have hbest : r.bestWords.Perm
      ((allWords.filter (fun c => decide (getScore c.word answerWords = topScore))).map
        (fun c => ({ word := c.word, score := topScore } : wordCountStruct))) := by
    rw [h5]
    have hp := (hperm.filter (fun w => decide (w.score = topScore))).map
      (fun w => ({ word := w.word, score := topScore } : wordCountStruct))
    refine hp.trans ?_
    unfold scoreAllWords
    rw [List.filter_map, List.map_map]
    exact List.Perm.refl _
  have hword : ∀ b ∈ r.bestWords, IsWord b.word := by
    intro b hb
    obtain ⟨c, hc, rfl⟩ := List.mem_map.1 (hbest.mem_iff.1 hb)
    exact hall c (List.mem_filter.1 hc).1
  refine ⟨r, topScore, h1, ?_, ?_, hbest, h6, ?_, h7⟩
  · intro c hc
    exact h3 _ (hmem c hc)
  · obtain ⟨w, hw, hwt⟩ := h4
    obtain ⟨c, hc, rfl⟩ := (mem_scoreAllWords answerWords allWords w).1 (hperm.mem_iff.1 hw)
    exact ⟨c, hc, hwt⟩
  · refine List.Pairwise.imp_of_mem ?_ h6
    intro a b ha hb hab
    exact (strcmp_le_iff_le a.word b.word ((hword a ha).trans (hword b hb).symm)).1 hab

/-- C8, as the program behaves: when `15 * n` fits an `int` for the `n`
answers and the candidates do not all have the same score, the function
returns; `bestWords` holds exactly the candidates whose `getScore` is the
greatest one (as many entries as there are such candidates), each with that
score, in ascending order of `strcmp`, which is the lexicographic order of the
words; and `numberOfTopScoringWords` is their number. -/
theorem findScoresAndTopWords_bestWords (answerWords allWords : List wordCountStruct)
    (hall : ∀ c ∈ allWords, IsWord c.word) (hans : ∀ a ∈ answerWords, IsWord a.word)
    (hn : 15 * (answerWords.length : Int) ≤ 2147483647)
    (hdiff : ∃ c ∈ allWords, ∃ d ∈ allWords,
      getScore c.word answerWords ≠ getScore d.word answerWords) :
    ∃ (r : TopWords) (topScore : Int),
      findScoresAndTopWords answerWords allWords = Except.ok r ∧
      (∀ c ∈ allWords, getScore c.word answerWords ≤ topScore) ∧
      (∃ c ∈ allWords, getScore c.word answerWords = topScore) ∧
      r.bestWords.Perm
        ((allWords.filter (fun c => decide (getScore c.word answerWords = topScore))).map
          (fun c => ({ word := c.word, score := topScore } : wordCountStruct))) ∧
      r.bestWords.Pairwise (fun a b => strcmp a.word b.word ≤ 0) ∧
      r.bestWords.Pairwise (fun a b => a.word ≤ b.word) ∧
      r.numberOfTopScoringWords = r.bestWords.length :=
  findScoresAndTopWords_spec answerWords allWords hall hans hn hdiff

/-- C8 (amended) for the answers "apple", "amble", "angle" and the
candidates "apple", "amble", "angle", "zzzzz". -/
theorem findScoresAndTopWords_bestWords_witness :
    (∀ c ∈ [(⟨"apple".toList, 0⟩ : wordCountStruct), ⟨"amble".toList, 0⟩,
        ⟨"angle".toList, 0⟩, ⟨"zzzzz".toList, 0⟩], IsWord c.word) ∧
      (∀ a ∈ [(⟨"apple".toList, 0⟩ : wordCountStruct), ⟨"amble".toList, 0⟩,
        ⟨"angle".toList, 0⟩], IsWord a.word) ∧
      ∃ (r : TopWords) (topScore : Int),
        findScoresAndTopWords
            [⟨"apple".toList, 0⟩, ⟨"amble".toList, 0⟩, ⟨"angle".toList, 0⟩]
            [⟨"apple".toList, 0⟩, ⟨"amble".toList, 0⟩, ⟨"angle".toList, 0⟩,
              ⟨"zzzzz".toList, 0⟩] = Except.ok r ∧
        (∀ c ∈ [(⟨"apple".toList, 0⟩ : wordCountStruct), ⟨"amble".toList, 0⟩,
            ⟨"angle".toList, 0⟩, ⟨"zzzzz".toList, 0⟩],
          getScore c.word [⟨"apple".toList, 0⟩, ⟨"amble".toList, 0⟩, ⟨"angle".toList, 0⟩] ≤
            topScore) ∧
        (∃ c ∈ [(⟨"apple".toList, 0⟩ : wordCountStruct), ⟨"amble".toList, 0⟩,
            ⟨"angle".toList, 0⟩, ⟨"zzzzz".toList, 0⟩],
          getScore c.word [⟨"apple".toList, 0⟩, ⟨"amble".toList, 0⟩, ⟨"angle".toList, 0⟩] =
            topScore) ∧
        r.bestWords.Perm
          (([(⟨"apple".toList, 0⟩ : wordCountStruct), ⟨"amble".toList, 0⟩,
              ⟨"angle".toList, 0⟩, ⟨"zzzzz".toList, 0⟩].filter
            (fun c => decide (getScore c.word
              [⟨"apple".toList, 0⟩, ⟨"amble".toList, 0⟩, ⟨"angle".toList, 0⟩] = topScore))).map
            (fun c => ({ word := c.word, score := topScore } : wordCountStruct))) ∧
        r.bestWords.Pairwise (fun a b => strcmp a.word b.word ≤ 0) ∧
        r.bestWords.Pairwise (fun a b => a.word ≤ b.word) ∧
        r.numberOfTopScoringWords = r.bestWords.length :=
  ⟨by decide, by decide,
    findScoresAndTopWords_bestWords
      [⟨"apple".toList, 0⟩, ⟨"amble".toList, 0⟩, ⟨"angle".toList, 0⟩]
      [⟨"apple".toList, 0⟩, ⟨"amble".toList, 0⟩, ⟨"angle".toList, 0⟩, ⟨"zzzzz".toList, 0⟩]
      (by decide) (by decide) (by decide)
      ⟨⟨"apple".toList, 0⟩, by decide, ⟨"zzzzz".toList, 0⟩, by decide, by decide⟩⟩

/-- C8, refuted as stated: against 143165577 copies of the answer "aaaaa"
the candidate "aaaaa" gets the score -2147483641 and the candidate "aaaab"
the score 1717986924; their difference leaves the `int` range in
`compareFunction`, the sort puts "aaaaa" first, and `bestWords` is "aaaaa"
alone, which is not the candidate with the greatest `getScore`. -/
theorem findScoresAndTopWords_overflow :
    findScoresAndTopWords (List.replicate 143165577 ⟨"aaaaa".toList, 0⟩)
        [⟨"aaaaa".toList, 0⟩, ⟨"aaaab".toList, 0⟩] =
      Except.ok
        { allWords := [⟨"aaaaa".toList, -2147483641⟩, ⟨"aaaab".toList, 1717986924⟩]
          bestWords := [⟨"aaaaa".toList, -2147483641⟩]
          numberOfTopScoringWords := 1 } ∧
      getScore "aaaaa".toList (List.replicate 143165577 ⟨"aaaaa".toList, 0⟩) = -2147483641 ∧
      getScore "aaaab".toList (List.replicate 143165577 ⟨"aaaaa".toList, 0⟩) = 1717986924 := by
  have hs1 : getSingleWordComparisonScore "aaaaa".toList "aaaaa".toList = 15 := by decide
  have hs2 : getSingleWordComparisonScore "aaaab".toList "aaaaa".toList = 12 := by decide
  have h1 : getScore "aaaaa".toList (List.replicate 143165577 ⟨"aaaaa".toList, 0⟩) =
      -2147483641 := by
    rw [getScore_replicate]
    simp only [hs1]
    unfold wrapInt32
    norm_num
  have h2 : getScore "aaaab".toList (List.replicate 143165577 ⟨"aaaaa".toList, 0⟩) =
      1717986924 := by
    rw [getScore_replicate]
    simp only [hs2]
    unfold wrapInt32
    norm_num
  refine ⟨?_, h1, h2⟩
  unfold findScoresAndTopWords scoreAllWords
  simp only [List.map_cons, List.map_nil, h1, h2]
  decide

/-! ## The shape of the discounted answers -/

theorem blanked_refl (a : List Char) : Blanked a a := by
  induction a with
  | nil => exact List.Forall₂.nil
  | cons x xs ih => exact List.Forall₂.cons (Or.inl rfl) ih

theorem blanked_trans {a b c : List Char} (h1 : Blanked a b) (h2 : Blanked b c) :
    Blanked a c := by
  unfold Blanked at h1 h2 ⊢
  induction h1 generalizing c with
  | nil => cases h2; exact List.Forall₂.nil
  | cons hxy _ ih =>
    cases h2 with
    | cons hyz htl =>
      refine List.Forall₂.cons ?_ (ih htl)
      rcases hyz with hyz | hyz
      · rw [hyz]; exact hxy
      · exact Or.inr hyz

theorem blanked_exactRight (o c : List Char) : Blanked c (exactRight o c) := by
  induction o generalizing c with
  | nil => cases c <;> exact blanked_refl _
  | cons x xs ih =>
    cases c with
    | nil => exact List.Forall₂.nil
    | cons y ys =>
      unfold exactRight
      refine List.Forall₂.cons ?_ (ih ys)
      by_cases hxy : x = y
      · rw [if_pos hxy]; exact Or.inr rfl
      · rw [if_neg hxy]; exact Or.inl rfl

theorem blanked_blankFirst (x : Char) (cw : List Char) : Blanked cw (blankFirst x cw) := by
  induction cw with
  | nil => exact List.Forall₂.nil
  | cons y ys ih =>
    unfold blankFirst
    by_cases hxy : x = y
    · rw [if_pos hxy]; exact List.Forall₂.cons (Or.inr rfl) (blanked_refl ys)
    · rw [if_neg hxy]; exact List.Forall₂.cons (Or.inl rfl) ih

theorem blanked_blankAll (xs : List Char) : ∀ cw : List Char, Blanked cw (blankAll xs cw) := by
  induction xs with
  | nil => intro cw; exact blanked_refl cw
  | cons x xs ih =>
    intro cw
    have hu : blankAll (x :: xs) cw = blankAll xs (blankFirst x cw) := rfl
    rw [hu]
    exact blanked_trans (blanked_blankFirst x cw) (ih (blankFirst x cw))

/-- Discounting only blanks letters of the answer. -/
theorem blanked_removeMatchingLettersWord (w a : List Char) (hw : IsWord w) (ha : IsWord a) :
    Blanked a (removeMatchingLettersWord w a) := by
  rw [removeMatchingLettersWord_eq w a hw ha]
  exact blanked_trans (blanked_exactRight w a) (blanked_blankAll _ _)

/-- C11: `removeMatchingLetters` returns as many entries as it was given and
in the same order; the entry at each index keeps its score, its word still
has `WORD_LENGTH` characters, and every position of that word holds the
letter the answer had there or a blank. -/
theorem removeMatchingLetters_shape (answers : List wordCountStruct) (w : List Char)
    (hw : IsWord w) (ha : ∀ a ∈ answers, IsWord a.word) :
    (removeMatchingLetters answers w).length = answers.length ∧
      ∀ (i : Nat) (a : wordCountStruct), answers[i]? = some a →
        ∃ d : wordCountStruct, (removeMatchingLetters answers w)[i]? = some d ∧
          d.score = a.score ∧ d.word.length = WORD_LENGTH ∧
          List.Forall₂ (fun x y => y = x ∨ y = BLANK) a.word d.word := by
  refine ⟨by unfold removeMatchingLetters; rw [List.length_map], ?_⟩
  intro i a hi
  have hmem : a ∈ answers := List.getElem?_mem hi
  refine ⟨⟨removeMatchingLettersWord w a.word, a.score⟩, ?_, rfl, ?_, ?_⟩
  · unfold removeMatchingLetters
    rw [List.getElem?_map, hi, Option.map_some']
  · dsimp only
    exact removeMatchingLettersWord_isWord w a.word hw (ha a hmem)
  · dsimp only
    exact blanked_removeMatchingLettersWord w a.word hw (ha a hmem)

/-- C11 for the claimed word "apple" and the answers "amble", "angle". -/
theorem removeMatchingLetters_shape_witness :
    IsWord "apple".toList ∧
      (∀ a ∈ [(⟨"amble".toList, 0⟩ : wordCountStruct), ⟨"angle".toList, 0⟩], IsWord a.word) ∧
      ((removeMatchingLetters [⟨"amble".toList, 0⟩, ⟨"angle".toList, 0⟩] "apple".toList).length =
          [(⟨"amble".toList, 0⟩ : wordCountStruct), ⟨"angle".toList, 0⟩].length ∧
        ∀ (i : Nat) (a : wordCountStruct),
          [(⟨"amble".toList, 0⟩ : wordCountStruct), ⟨"angle".toList, 0⟩][i]? = some a →
          ∃ d : wordCountStruct,
            (removeMatchingLetters [⟨"amble".toList, 0⟩, ⟨"angle".toList, 0⟩]
              "apple".toList)[i]? = some d ∧
            d.score = a.score ∧ d.word.length = WORD_LENGTH ∧
            List.Forall₂ (fun x y => y = x ∨ y = BLANK) a.word d.word) :=
  ⟨by decide, by decide,
    removeMatchingLetters_shape [⟨"amble".toList, 0⟩, ⟨"angle".toList, 0⟩] "apple".toList
      (by decide) (by decide)⟩

/-! ## The reads of `findScoresAndTopWords` outside `allWords` -/

/-- C12, on the code: with no candidate word the function reports no
error of its own; its first read after the sort, `allWords[0]`, already lies
outside the array. -/
theorem findScoresAndTopWords_empty (answerWords : List wordCountStruct) :
    findScoresAndTopWords answerWords [] = Except.error Fault.outOfBounds := by
  unfold findScoresAndTopWords scoreAllWords
  rfl

/-- C14, on the code: for the answers and candidates "apple", "amble",
"angle" every candidate scores 33 and the sort leaves "amble", "angle",
"apple"; the scan then finds the top score at indices 0, 1 and 2 and reads
`allWords[3]`, outside the array. -/
theorem findScoresAndTopWords_apple_amble_angle :
    scoreAllWords [⟨"apple".toList, 0⟩, ⟨"amble".toList, 0⟩, ⟨"angle".toList, 0⟩]
        [⟨"apple".toList, 0⟩, ⟨"amble".toList, 0⟩, ⟨"angle".toList, 0⟩] =
      [⟨"apple".toList, 33⟩, ⟨"amble".toList, 33⟩, ⟨"angle".toList, 33⟩] ∧
    qsort compareFunction
        [⟨"apple".toList, 33⟩, ⟨"amble".toList, 33⟩, ⟨"angle".toList, 33⟩] =
      [⟨"amble".toList, 33⟩, ⟨"angle".toList, 33⟩, ⟨"apple".toList, 33⟩] ∧
    topScan 33 [⟨"amble".toList, 33⟩, ⟨"angle".toList, 33⟩, ⟨"apple".toList, 33⟩] 0 =
      Except.error Fault.outOfBounds ∧
    findScoresAndTopWords [⟨"apple".toList, 0⟩, ⟨"amble".toList, 0⟩, ⟨"angle".toList, 0⟩]
        [⟨"apple".toList, 0⟩, ⟨"amble".toList, 0⟩, ⟨"angle".toList, 0⟩] =
      Except.error Fault.outOfBounds :=
  ⟨by decide, by decide, rfl, by decide⟩

/-- C17, on the code: for the single candidate "apple" (scored 15 against
the answer "apple") the scan finds the top score at index 0, goes on to
`allWords[1]`, which is outside the array, and never reaches a count. -/
theorem topScan_single_word :
    scoreAllWords [⟨"apple".toList, 0⟩] [⟨"apple".toList, 0⟩] = [⟨"apple".toList, 15⟩] ∧
    topScan 15 [⟨"apple".toList, 15⟩] 0 = Except.error Fault.outOfBounds ∧
    findScoresAndTopWords [⟨"apple".toList, 0⟩] [⟨"apple".toList, 0⟩] =
      Except.error Fault.outOfBounds :=
  ⟨by decide, rfl, by decide⟩

/-- The scan leaves the array exactly when every element has the top score. -/
theorem topScan_error_iff (t : Int) (l : List wordCountStruct) (i : Nat) :
    topScan t l i = Except.error Fault.outOfBounds ↔ ∀ w ∈ l, w.score = t := by
  rw [topScan_eq]
  by_cases h : ∀ w ∈ l, w.score = t
  · simp [h]
  · simp only [if_neg h, h, iff_false]
    intro e
    exact Except.noConfusion e

/-! ## The order of `compareFunction` -/

/-- On strings of one length `strcmp` is zero exactly for equal strings. -/
theorem strcmp_eq_zero_iff (a : List Char) :
    ∀ b : List Char, a.length = b.length → (strcmp a b = 0 ↔ a = b) := by
  induction a with
  | nil =>
    intro b h
    cases b with
    | nil => simp [strcmp]
    | cons y ys => simp at h
  | cons x xs ih =>
    intro b h
    cases b with
    | nil => simp at h
    | cons y ys =>
      simp only [List.length_cons, Nat.add_right_cancel_iff] at h
      unfold strcmp
      by_cases hxy : x = y
      · subst hxy
        rw [if_pos rfl, ih ys h]
        simp
      · rw [if_neg hxy]
        constructor
        · intro h0
          exact absurd (toNat_injective (by omega)) hxy
        · intro he
          exact absurd (List.cons.inj he).1 hxy

theorem compareFunction_neg (a b : wordCountStruct) (ha : InRange a) (hb : InRange b) :
    compareFunction a b = - compareFunction b a := by
  obtain ⟨_, ha1, ha2⟩ := ha
  obtain ⟨_, hb1, hb2⟩ := hb
  unfold compareFunction
  by_cases h : a.score = b.score
  · simp only [h, ne_eq, not_true_eq_false, if_false]
    exact strcmp_antisymm a.word b.word
  · have h2 : ¬ b.score = a.score := fun e => h e.symm
    simp only [ne_eq, h, h2, not_false_eq_true, if_true]
    rw [wrapInt32_of_range _ (by omega) (by omega), wrapInt32_of_range _ (by omega) (by omega)]
    ring

theorem compareFunction_lt_iff (a b : wordCountStruct) (ha : InRange a) (hb : InRange b) :
    compareFunction a b < 0 ↔
      b.score < a.score ∨ (a.score = b.score ∧ a.word < b.word) := by
  have hlen : a.word.length = b.word.length := ha.1.trans hb.1.symm
  obtain ⟨_, ha1, ha2⟩ := ha
  obtain ⟨_, hb1, hb2⟩ := hb
  unfold compareFunction
  by_cases h : a.score = b.score
  · simp only [h, ne_eq, not_true_eq_false, if_false, lt_self_iff_false, true_and, false_or]
    exact strcmp_neg_iff_lt a.word b.word hlen
  · simp only [ne_eq, h, not_false_eq_true, if_true, false_and, or_false]
    rw [wrapInt32_of_range _ (by omega) (by omega)]
    omega

theorem compareFunction_eq_zero_iff (a b : wordCountStruct) (ha : InRange a)
    (hb : InRange b) :
    compareFunction a b = 0 ↔ a.score = b.score ∧ a.word = b.word := by
  have hlen : a.word.length = b.word.length := ha.1.trans hb.1.symm
  obtain ⟨_, ha1, ha2⟩ := ha
  obtain ⟨_, hb1, hb2⟩ := hb
  unfold compareFunction
  by_cases h : a.score = b.score
  · simp only [h, ne_eq, not_true_eq_false, if_false, true_and]
    exact strcmp_eq_zero_iff a.word b.word hlen
  · simp only [ne_eq, h, not_false_eq_true, if_true, false_and, iff_false]
    rw [wrapInt32_of_range _ (by omega) (by omega)]
    omega

theorem inRange_of_bounds (a : wordCountStruct) (n : Nat) (hn : 15 * (n : Int) ≤ 2147483647)
    (hw : IsWord a.word) (h0 : 0 ≤ a.score) (h1 : a.score ≤ 15 * (n : Int)) : InRange a :=
  ⟨hw, h0, by omega⟩

/-- C18: for entries with five-letter words and scores between 0 and
`15 * n`, where `15 * n` fits an `int`, `compareFunction a b` is negative
exactly when `a` has the greater score, or the same score and the
lexicographically smaller word; it is zero exactly when score and word are
equal; its sign is the opposite of the sign of `compareFunction b a`; and the
relation "`compareFunction` is not positive" is total and transitive. -/
theorem compareFunction_order (a b : wordCountStruct) (n : Nat)
    (hn : 15 * (n : Int) ≤ 2147483647)
    (haw : IsWord a.word) (ha0 : 0 ≤ a.score) (ha1 : a.score ≤ 15 * (n : Int))
    (hbw : IsWord b.word) (hb0 : 0 ≤ b.score) (hb1 : b.score ≤ 15 * (n : Int)) :
    (compareFunction a b < 0 ↔
        b.score < a.score ∨ (a.score = b.score ∧ a.word < b.word)) ∧
      (compareFunction a b = 0 ↔ a.score = b.score ∧ a.word = b.word) ∧
      Int.sign (compareFunction a b) = - Int.sign (compareFunction b a) ∧
      (compareFunction a b ≤ 0 ∨ compareFunction b a ≤ 0) ∧
      (∀ c : wordCountStruct, IsWord c.word → 0 ≤ c.score → c.score ≤ 15 * (n : Int) →
        (compareFunction a b ≤ 0 → compareFunction b c ≤ 0 → compareFunction a c ≤ 0) ∧
        (compareFunction a b < 0 → compareFunction b c < 0 → compareFunction a c < 0)) := by
  have ha := inRange_of_bounds a n hn haw ha0 ha1
  have hb := inRange_of_bounds b n hn hbw hb0 hb1
  refine ⟨compareFunction_lt_iff a b ha hb, compareFunction_eq_zero_iff a b ha hb, ?_,
    compareFunction_total a b ha hb, ?_⟩
  · rw [compareFunction_neg a b ha hb, Int.sign_neg]
  · intro c hcw hc0 hc1
    have hc := inRange_of_bounds c n hn hcw hc0 hc1
    refine ⟨compareFunction_trans a b c ha hb hc, ?_⟩
    intro hab hbc
    have h1 := compareFunction_trans a b c ha hb hc (le_of_lt hab) (le_of_lt hbc)
    rcases lt_or_eq_of_le h1 with h | h
    · exact h
    · exfalso
      have e := (compareFunction_eq_zero_iff a c ha hc).1 h
      have eac : a = c := by
        cases a; cases c
        simp only at e
        simp [e.1, e.2]
      subst eac
      have := compareFunction_neg a b ha hb
      omega

/-- C18 for the entries ("amble", 33) and ("angle", 33) with `n = 3`. -/
theorem compareFunction_order_witness :
    (compareFunction ⟨"amble".toList, 33⟩ ⟨"angle".toList, 33⟩ < 0 ↔
        (33 : Int) < 33 ∨ ((33 : Int) = 33 ∧ "amble".toList < "angle".toList)) ∧
      (compareFunction ⟨"amble".toList, 33⟩ ⟨"angle".toList, 33⟩ = 0 ↔
        (33 : Int) = 33 ∧ "amble".toList = "angle".toList) ∧
      Int.sign (compareFunction ⟨"amble".toList, 33⟩ ⟨"angle".toList, 33⟩) =
        - Int.sign (compareFunction ⟨"angle".toList, 33⟩ ⟨"amble".toList, 33⟩) ∧
      (compareFunction ⟨"amble".toList, 33⟩ ⟨"angle".toList, 33⟩ ≤ 0 ∨
        compareFunction ⟨"angle".toList, 33⟩ ⟨"amble".toList, 33⟩ ≤ 0) ∧
      (∀ c : wordCountStruct, IsWord c.word → 0 ≤ c.score → c.score ≤ 15 * ((3 : Nat) : Int) →
        (compareFunction ⟨"amble".toList, 33⟩ ⟨"angle".toList, 33⟩ ≤ 0 →
          compareFunction ⟨"angle".toList, 33⟩ c ≤ 0 →
          compareFunction ⟨"amble".toList, 33⟩ c ≤ 0) ∧
        (compareFunction ⟨"amble".toList, 33⟩ ⟨"angle".toList, 33⟩ < 0 →
          compareFunction ⟨"angle".toList, 33⟩ c < 0 →
          compareFunction ⟨"amble".toList, 33⟩ c < 0)) :=
  compareFunction_order ⟨"amble".toList, 33⟩ ⟨"angle".toList, 33⟩ 3
    (by decide) (by decide) (by decide) (by decide) (by decide) (by decide) (by decide)

/-! ## The second round -/

/-- What a returning call of `findAndDisplayBestSecondWords` leaves. -/
theorem findAndDisplayBestSecondWords_ok (answerWords allWords bestWords : List wordCountStruct)
    (i : Nat) (s : SecondWords)
    (h : findAndDisplayBestSecondWords answerWords allWords bestWords i = Except.ok s) :
    s.answerWords = answerWords ∧
      bestWords[i]? = some ⟨s.bestWord, s.bestWordScore⟩ ∧
      s.answerWordsCopy =
        removeMatchingLetters
          (answerWords.map (fun a => ({ word := a.word, score := 0 } : wordCountStruct)))
          s.bestWord ∧
      findScoresAndTopWords s.answerWordsCopy allWords =
        Except.ok ⟨s.allWords, s.bestSecondWords, s.numberOfTopScoringSecondWords⟩ := by
  unfold findAndDisplayBestSecondWords at h
  cases hb : bestWords[i]? with
  | none => rw [hb] at h; exact Except.noConfusion h
  | some best =>
    rw [hb] at h
    simp only at h
    cases hf : findScoresAndTopWords
        (removeMatchingLetters
          (answerWords.map (fun a => ({ word := a.word, score := 0 } : wordCountStruct)))
          best.word) allWords with
    | error e => rw [hf] at h; exact Except.noConfusion h
    | ok r =>
      rw [hf] at h
      have e := Except.ok.inj h
      subst e
      exact ⟨rfl, rfl, rfl, hf⟩

/-- The loop over the top-scoring first words never changes `answerWords`,
and every round it adds starts from that array. -/
theorem secondWordRounds_ok (bestWords : List wordCountStruct) (indices : List Nat) :
    ∀ st final : RoundsState, secondWordRounds bestWords indices st = Except.ok final →
      final.answerWords = st.answerWords ∧
      final.rounds.length = st.rounds.length + indices.length ∧
      ∀ s ∈ final.rounds, s ∈ st.rounds ∨
        (s.answerWords = st.answerWords ∧
          s.answerWordsCopy =
            removeMatchingLetters
              (st.answerWords.map (fun a => ({ word := a.word, score := 0 } : wordCountStruct)))
              s.bestWord) := by
  induction indices with
  | nil =>
    intro st final h
    have e : st = final := Except.ok.inj h
    subst e
    exact ⟨rfl, rfl, fun s hs => Or.inl hs⟩
  | cons i rest ih =>
    intro st final h
    unfold secondWordRounds at h
    cases hc : findAndDisplayBestSecondWords st.answerWords st.allWords bestWords i with
    | error e => rw [hc] at h; exact Except.noConfusion h
    | ok s =>
      rw [hc] at h
      simp only at h
      obtain ⟨h1, _, h3, _⟩ :=
        findAndDisplayBestSecondWords_ok st.answerWords st.allWords bestWords i s hc
      obtain ⟨g1, g2, g3⟩ := ih _ final h
      simp only at g1 g2 g3
      refine ⟨g1.trans h1, ?_, ?_⟩
      · rw [g2, List.length_append, List.length_cons, List.length_cons, List.length_nil]
        omega
      · intro t ht
        rcases g3 t ht with hmem | ⟨ha, hb⟩
        · rcases List.mem_append.1 hmem with hm | hm
          · exact Or.inl hm
          · have et : t = s := by simpa using hm
            subst et
            exact Or.inr ⟨h1, h3⟩
        · right
          rw [h1] at ha hb
          exact ⟨ha, hb⟩

theorem removeMatchingLetters_isWord (answers : List wordCountStruct) (w : List Char)
    (hw : IsWord w) (ha : ∀ a ∈ answers, IsWord a.word) :
    ∀ d ∈ removeMatchingLetters answers w, IsWord d.word := by
  intro d hd
  unfold removeMatchingLetters at hd
  obtain ⟨a, hmem, rfl⟩ := List.mem_map.1 hd
  dsimp only
  exact removeMatchingLettersWord_isWord w a.word hw (ha a hmem)

/-- A call of `findAndDisplayBestSecondWords` returns when the index is in
range, the corpus fits the `int` range and the candidates do not all get the
same score against the discounted answers. -/
theorem findAndDisplayBestSecondWords_returns
    (answerWords allWords bestWords : List wordCountStruct) (i : Nat) (best : wordCountStruct)
    (hi : bestWords[i]? = some best) (hb : IsWord best.word)
    (hall : ∀ c ∈ allWords, IsWord c.word) (hans : ∀ a ∈ answerWords, IsWord a.word)
    (hn : 15 * (answerWords.length : Int) ≤ 2147483647)
    (hdiff : ∃ c ∈ allWords, ∃ d ∈ allWords,
      getScore c.word (removeMatchingLetters
          (answerWords.map (fun a => ({ word := a.word, score := 0 } : wordCountStruct)))
          best.word) ≠
        getScore d.word (removeMatchingLetters
          (answerWords.map (fun a => ({ word := a.word, score := 0 } : wordCountStruct)))
          best.word)) :
    ∃ s : SecondWords,
      findAndDisplayBestSecondWords answerWords allWords bestWords i = Except.ok s := by
  have hz : ∀ a ∈ answerWords.map
      (fun a => ({ word := a.word, score := 0 } : wordCountStruct)), IsWord a.word := by
    intro a ha
    obtain ⟨b, hbm, rfl⟩ := List.mem_map.1 ha
    exact hans b hbm
  have hcopy := removeMatchingLetters_isWord _ best.word hb hz
  have hlen : (removeMatchingLetters
      (answerWords.map (fun a => ({ word := a.word, score := 0 } : wordCountStruct)))
      best.word).length = answerWords.length := by
    unfold removeMatchingLetters
    rw [List.length_map, List.length_map]
  obtain ⟨r, _, hr, _⟩ := findScoresAndTopWords_spec _ allWords hall hcopy
    (by rw [hlen]; exact hn) hdiff
  refine ⟨{ answerWords := answerWords
            allWords := r.allWords
            answerWordsCopy := removeMatchingLetters
              (answerWords.map (fun a => ({ word := a.word, score := 0 } : wordCountStruct)))
              best.word
            bestWord := best.word
            bestWordScore := best.score
            bestSecondWords := r.bestWords
            numberOfTopScoringSecondWords := r.numberOfTopScoringWords }, ?_⟩
  unfold findAndDisplayBestSecondWords
  rw [hi]
  simp only [hr]

/-- C15: when the calls of `findAndDisplayBestSecondWords` made by the loop
of `main` for the indices `indices` return (one call for `indices = [i]`),
the array `answerWords` is afterwards what it was, word for word and score
for score; every call was handed that same array, and the array it
discounted is a copy made from it in which the scores are 0. -/
theorem secondRound_answerWords_unchanged
    (answerWords allWords bestWords : List wordCountStruct) (indices : List Nat)
    (final : RoundsState)
    (h : secondWordRounds bestWords indices
      { answerWords := answerWords, allWords := allWords, rounds := [] } = Except.ok final) :
    final.answerWords = answerWords ∧
      final.rounds.length = indices.length ∧
      ∀ s ∈ final.rounds, s.answerWords = answerWords ∧
        s.answerWordsCopy =
          removeMatchingLetters
            (answerWords.map (fun a => ({ word := a.word, score := 0 } : wordCountStruct)))
            s.bestWord := by
  obtain ⟨h1, h2, h3⟩ := secondWordRounds_ok bestWords indices _ final h
  simp only [List.length_nil, Nat.zero_add] at h1 h2
  refine ⟨h1, h2, ?_⟩
  intro s hs
  rcases h3 s hs with hm | hm
  · simp at hm
  · exact hm

set_option maxRecDepth 100000 in
/-- C15 for the answers "apple", "amble", "angle" (with stored scores 1, 2,
3), the candidates "amble", "angle", "apple", "zzzzz" as round 1 leaves them,
and the three top first words. -/
theorem secondRound_answerWords_unchanged_witness :
    ∃ final : RoundsState,
      secondWordRounds
          [⟨"amble".toList, 33⟩, ⟨"angle".toList, 33⟩, ⟨"apple".toList, 33⟩]
          [0, 1, 2]
          { answerWords := [⟨"apple".toList, 1⟩, ⟨"amble".toList, 2⟩, ⟨"angle".toList, 3⟩]
            allWords := [⟨"amble".toList, 33⟩, ⟨"angle".toList, 33⟩, ⟨"apple".toList, 33⟩,
              ⟨"zzzzz".toList, 0⟩]
            rounds := [] } = Except.ok final ∧
      final.answerWords = [⟨"apple".toList, 1⟩, ⟨"amble".toList, 2⟩, ⟨"angle".toList, 3⟩] ∧
      final.rounds.length = [0, 1, 2].length ∧
      ∀ s ∈ final.rounds,
        s.answerWords = [⟨"apple".toList, 1⟩, ⟨"amble".toList, 2⟩, ⟨"angle".toList, 3⟩] ∧
        s.answerWordsCopy =
          removeMatchingLetters
            (([⟨"apple".toList, 1⟩, ⟨"amble".toList, 2⟩, ⟨"angle".toList, 3⟩] :
              List wordCountStruct).map
              (fun a => ({ word := a.word, score := 0 } : wordCountStruct)))
            s.bestWord :=
  match h : secondWordRounds
      [⟨"amble".toList, 33⟩, ⟨"angle".toList, 33⟩, ⟨"apple".toList, 33⟩]
      [0, 1, 2]
      { answerWords := [⟨"apple".toList, 1⟩, ⟨"amble".toList, 2⟩, ⟨"angle".toList, 3⟩]
        allWords := [⟨"amble".toList, 33⟩, ⟨"angle".toList, 33⟩, ⟨"apple".toList, 33⟩,
          ⟨"zzzzz".toList, 0⟩]
        rounds := [] } with
  | Except.ok final =>
    ⟨final, rfl, secondRound_answerWords_unchanged _ _ _ _ final h⟩
  | Except.error Fault.outOfBounds => absurd h (by decide)

/-! ## Round 1 does not depend on the order of the candidates -/

/-- Among entries in range `compareFunction` orders by descending score, then
by ascending word. -/
theorem compareFunction_le_iff_le (a b : wordCountStruct) (ha : InRange a) (hb : InRange b) :
    compareFunction a b ≤ 0 ↔
      b.score < a.score ∨ (a.score = b.score ∧ a.word ≤ b.word) := by
  rw [compareFunction_le_iff a b ha hb,
    strcmp_le_iff_le a.word b.word (ha.1.trans hb.1.symm)]

/-- There is one sorted arrangement of a collection of entries in range. -/
theorem sorted_unique (s1 s2 : List wordCountStruct) (hp : s1.Perm s2)
    (hr : ∀ w ∈ s1, InRange w)
    (h1 : s1.Pairwise (fun a b => compareFunction a b ≤ 0))
    (h2 : s2.Pairwise (fun a b => compareFunction a b ≤ 0)) : s1 = s2 := by
  have hr2 : ∀ w ∈ s2, InRange w := fun w hw => hr w (hp.mem_iff.2 hw)
  have g1 : s1.Pairwise
      (fun a b => b.score < a.score ∨ (a.score = b.score ∧ a.word ≤ b.word)) :=
    List.Pairwise.imp_of_mem
      (fun {a b} ha hb hab => (compareFunction_le_iff_le a b (hr a ha) (hr b hb)).1 hab) h1
  have g2 : s2.Pairwise
      (fun a b => b.score < a.score ∨ (a.score = b.score ∧ a.word ≤ b.word)) :=
    List.Pairwise.imp_of_mem
      (fun {a b} ha hb hab => (compareFunction_le_iff_le a b (hr2 a ha) (hr2 b hb)).1 hab) h2
  haveI : IsAntisymm wordCountStruct
      (fun a b => b.score < a.score ∨ (a.score = b.score ∧ a.word ≤ b.word)) :=
    ⟨by
      intro a b hab hba
      rcases hab with hab | ⟨e1, w1⟩
      · rcases hba with hba | ⟨e2, _⟩
        · omega
        · omega
      · rcases hba with hba | ⟨_, w2⟩
        · omega
        · cases a
          cases b
          simp only at e1 w1 w2
          simp only [wordCountStruct.mk.injEq]
          exact ⟨le_antisymm w1 w2, e1⟩⟩
  exact List.eq_of_perm_of_sorted hp g1 g2

/-- The scoring loop looks at the words only, not at the scores stored. -/
theorem scoreAllWords_eq_map_word (answerWords allWords : List wordCountStruct) :
    scoreAllWords answerWords allWords =
      (allWords.map (fun w => w.word)).map
        (fun x => ({ word := x, score := getScore x answerWords } : wordCountStruct)) := by
  unfold scoreAllWords
  rw [List.map_map]
  rfl

/-- Scoring an array that is already scored against the same answers changes
nothing. -/
theorem scoreAllWords_fixed (answerWords l : List wordCountStruct)
    (h : ∀ w ∈ l, w.score = getScore w.word answerWords) :
    scoreAllWords answerWords l = l := by
  unfold scoreAllWords
  induction l with
  | nil => rfl
  | cons w ws ih =>
    have hw := h w (List.mem_cons_self w ws)
    rw [List.map_cons, ih (fun v hv => h v (List.mem_cons_of_mem _ hv)), ← hw]

theorem scoreAllWords_inRange (answerWords allWords : List wordCountStruct)
    (hall : ∀ c ∈ allWords, IsWord c.word) (hans : ∀ a ∈ answerWords, IsWord a.word)
    (hn : 15 * (answerWords.length : Int) ≤ 2147483647) :
    ∀ w ∈ scoreAllWords answerWords allWords, InRange w := by
  intro w hw
  obtain ⟨c, hc, rfl⟩ := (mem_scoreAllWords answerWords allWords w).1 hw
  have hb := getScore_inRange c.word (hall c hc) answerWords hans hn
  exact ⟨hall c hc, hb.1, hb.2⟩

/-- Every array holding the scored candidates in sorted order is the array
the model of `qsort` produces. -/
theorem qsort_unique (answerWords allWords sorted : List wordCountStruct)
    (hall : ∀ c ∈ allWords, IsWord c.word) (hans : ∀ a ∈ answerWords, IsWord a.word)
    (hn : 15 * (answerWords.length : Int) ≤ 2147483647)
    (hp : sorted.Perm (scoreAllWords answerWords allWords))
    (hs : sorted.Pairwise (fun a b => compareFunction a b ≤ 0)) :
    sorted = qsort compareFunction (scoreAllWords answerWords allWords) := by
  have hrs := scoreAllWords_inRange answerWords allWords hall hans hn
  have hq := qsort_pairwise compareFunction InRange compareFunction_total
    compareFunction_trans (scoreAllWords answerWords allWords) hrs
  exact sorted_unique sorted _
    (hp.trans (qsort_perm compareFunction (scoreAllWords answerWords allWords)).symm)
    (fun w hw => hrs w (hp.mem_iff.1 hw)) hs hq

/-- C13, as the program behaves: when `15 * n` fits an `int` for the `n`
answers and the candidates do not all have the same score, the outcome of
`findScoresAndTopWords` (the sorted array, the count and `bestWords`, hence
the top score they carry) is the same for every array `allWords'` that holds
the same words as `allWords`, in any order and with any scores stored; it is
what the selection yields on any sorted arrangement of the scored candidates,
whichever one the sort produces; and a second run on the array the first run
left is again the same. -/
theorem round1_deterministic (answerWords allWords allWords' : List wordCountStruct)
    (hall : ∀ c ∈ allWords, IsWord c.word) (hans : ∀ a ∈ answerWords, IsWord a.word)
    (hn : 15 * (answerWords.length : Int) ≤ 2147483647)
    (hdiff : ∃ c ∈ allWords, ∃ d ∈ allWords,
      getScore c.word answerWords ≠ getScore d.word answerWords)
    (hwords : (allWords.map (fun w => w.word)).Perm (allWords'.map (fun w => w.word))) :
    ∃ r : TopWords,
      findScoresAndTopWords answerWords allWords = Except.ok r ∧
      findScoresAndTopWords answerWords allWords' = Except.ok r ∧
      (∀ sorted : List wordCountStruct,
        sorted.Perm (scoreAllWords answerWords allWords') →
        sorted.Pairwise (fun a b => compareFunction a b ≤ 0) →
        selectTopWords sorted = Except.ok r) ∧
      findScoresAndTopWords answerWords r.allWords = Except.ok r := by
  have hperm := qsort_perm compareFunction (scoreAllWords answerWords allWords)
  have hrs := scoreAllWords_inRange answerWords allWords hall hans hn
  have hr : ∀ w ∈ qsort compareFunction (scoreAllWords answerWords allWords), InRange w :=
    fun w hw => hrs w (hperm.mem_iff.1 hw)
  have hs := qsort_pairwise compareFunction InRange compareFunction_total compareFunction_trans
    (scoreAllWords answerWords allWords) hrs
  have hd : ∃ c ∈ qsort compareFunction (scoreAllWords answerWords allWords),
      ∃ d ∈ qsort compareFunction (scoreAllWords answerWords allWords), c.score ≠ d.score := by
    obtain ⟨c, hc, d, hd, hcd⟩ := hdiff
    exact ⟨_, hperm.mem_iff.2 ((mem_scoreAllWords answerWords allWords _).2 ⟨c, hc, rfl⟩),
      _, hperm.mem_iff.2 ((mem_scoreAllWords answerWords allWords _).2 ⟨d, hd, rfl⟩), hcd⟩
  obtain ⟨r, _, h1, h2, _⟩ := selectTopWords_sorted _ hr hs hd
  have hall' : ∀ c ∈ allWords', IsWord c.word := by
    intro c hc
    have hm : c.word ∈ allWords'.map (fun w => w.word) := List.mem_map.2 ⟨c, hc, rfl⟩
    obtain ⟨c0, hc0, e⟩ := List.mem_map.1 (hwords.mem_iff.2 hm)
    rw [← e]
    exact hall c0 hc0
  have hsp : (scoreAllWords answerWords allWords').Perm (scoreAllWords answerWords allWords) := by
    rw [scoreAllWords_eq_map_word, scoreAllWords_eq_map_word]
    exact (hwords.map _).symm
  have hany : ∀ sorted : List wordCountStruct,
      sorted.Perm (scoreAllWords answerWords allWords') →
      sorted.Pairwise (fun a b => compareFunction a b ≤ 0) →
      sorted = qsort compareFunction (scoreAllWords answerWords allWords) :=
    fun sorted hp hsd => qsort_unique answerWords allWords sorted hall hans hn (hp.trans hsp) hsd
  have hq' : qsort compareFunction (scoreAllWords answerWords allWords') =
      qsort compareFunction (scoreAllWords answerWords allWords) :=
    hany _ (qsort_perm compareFunction _)
      (qsort_pairwise compareFunction InRange compareFunction_total compareFunction_trans _
        (scoreAllWords_inRange answerWords allWords' hall' hans hn))
  refine ⟨r, h1, ?_, ?_, ?_⟩
  · unfold findScoresAndTopWords
    rw [hq']
    exact h1
  · intro sorted hp hsd
    rw [hany sorted hp hsd]
    exact h1
  · have hfix : scoreAllWords answerWords r.allWords = r.allWords := by
      apply scoreAllWords_fixed
      intro w hw
      rw [h2] at hw
      obtain ⟨c, _, rfl⟩ := (mem_scoreAllWords answerWords allWords w).1 (hperm.mem_iff.1 hw)
      rfl
    have hqs : qsort compareFunction r.allWords = r.allWords := by
      rw [h2]
      exact sorted_unique _ _ (qsort_perm compareFunction _)
        (fun w hw => hr w ((qsort_perm compareFunction _).mem_iff.1 hw))
        (qsort_pairwise compareFunction InRange compareFunction_total compareFunction_trans _ hr)
        hs
    unfold findScoresAndTopWords
    rw [hfix, hqs, h2]
    exact h1

/-- C13 (amended) for the answers "apple", "amble", "angle" and the
candidates "apple", "amble", "angle", "zzzzz", given a second time in another
order and with other scores stored. -/
theorem round1_deterministic_witness :
    ∃ r : TopWords,
      findScoresAndTopWords [⟨"apple".toList, 0⟩, ⟨"amble".toList, 0⟩, ⟨"angle".toList, 0⟩]
          [⟨"apple".toList, 0⟩, ⟨"amble".toList, 0⟩, ⟨"angle".toList, 0⟩,
            ⟨"zzzzz".toList, 0⟩] = Except.ok r ∧
      findScoresAndTopWords [⟨"apple".toList, 0⟩, ⟨"amble".toList, 0⟩, ⟨"angle".toList, 0⟩]
          [⟨"zzzzz".toList, 7⟩, ⟨"angle".toList, 5⟩, ⟨"apple".toList, 3⟩,
            ⟨"amble".toList, 1⟩] = Except.ok r ∧
      (∀ sorted : List wordCountStruct,
        sorted.Perm
          (scoreAllWords [⟨"apple".toList, 0⟩, ⟨"amble".toList, 0⟩, ⟨"angle".toList, 0⟩]
            [⟨"zzzzz".toList, 7⟩, ⟨"angle".toList, 5⟩, ⟨"apple".toList, 3⟩,
              ⟨"amble".toList, 1⟩]) →
        sorted.Pairwise (fun a b => compareFunction a b ≤ 0) →
        selectTopWords sorted = Except.ok r) ∧
      findScoresAndTopWords [⟨"apple".toList, 0⟩, ⟨"amble".toList, 0⟩, ⟨"angle".toList, 0⟩]
        r.allWords = Except.ok r :=
  round1_deterministic [⟨"apple".toList, 0⟩, ⟨"amble".toList, 0⟩, ⟨"angle".toList, 0⟩]
    [⟨"apple".toList, 0⟩, ⟨"amble".toList, 0⟩, ⟨"angle".toList, 0⟩, ⟨"zzzzz".toList, 0⟩]
    [⟨"zzzzz".toList, 7⟩, ⟨"angle".toList, 5⟩, ⟨"apple".toList, 3⟩, ⟨"amble".toList, 1⟩]
    (by decide) (by decide) (by decide)
    ⟨⟨"apple".toList, 0⟩, by decide, ⟨"zzzzz".toList, 0⟩, by decide, by decide⟩
    (by decide)

theorem getScore_append (g : List Char) (l1 l2 : List wordCountStruct) :
    getScore g (l1 ++ l2) =
      l2.foldl (fun score a => wrapInt32 (score + getSingleWordComparisonScore g a.word))
        (getScore g l1) := by
  unfold getScore
  rw [List.foldl_append]

/-- C13, refuted as stated: against 143165577 copies of the answer "aaaaa"
followed by "bbxyz" and "qqqqc", the candidate "aaaaa" gets the score
-2147483641 and the candidate "bbbcd" the score 7.  Their difference is
`2^31`, so `compareFunction` is negative in both orders, the sort leaves the
two candidates in the order it found them, and the top word is "aaaaa" when
the candidates are given as "aaaaa", "bbbcd" and "bbbcd" when they are given
as "bbbcd", "aaaaa". -/
theorem round1_order_dependent :
    findScoresAndTopWords
        (List.replicate 143165577 ⟨"aaaaa".toList, 0⟩ ++
          [⟨"bbxyz".toList, 0⟩, ⟨"qqqqc".toList, 0⟩])
        [⟨"aaaaa".toList, 0⟩, ⟨"bbbcd".toList, 0⟩] =
      Except.ok
        { allWords := [⟨"aaaaa".toList, -2147483641⟩, ⟨"bbbcd".toList, 7⟩]
          bestWords := [⟨"aaaaa".toList, -2147483641⟩]
          numberOfTopScoringWords := 1 } ∧
    findScoresAndTopWords
        (List.replicate 143165577 ⟨"aaaaa".toList, 0⟩ ++
          [⟨"bbxyz".toList, 0⟩, ⟨"qqqqc".toList, 0⟩])
        [⟨"bbbcd".toList, 0⟩, ⟨"aaaaa".toList, 0⟩] =
      Except.ok
        { allWords := [⟨"bbbcd".toList, 7⟩, ⟨"aaaaa".toList, -2147483641⟩]
          bestWords := [⟨"bbbcd".toList, 7⟩]
          numberOfTopScoringWords := 1 } ∧
    compareFunction ⟨"aaaaa".toList, -2147483641⟩ ⟨"bbbcd".toList, 7⟩ = -2147483648 ∧
    compareFunction ⟨"bbbcd".toList, 7⟩ ⟨"aaaaa".toList, -2147483641⟩ = -2147483648 := by
  have hs1 : getSingleWordComparisonScore "aaaaa".toList "aaaaa".toList = 15 := by decide
  have hs2 : getSingleWordComparisonScore "bbbcd".toList "aaaaa".toList = 0 := by decide
  have h1 : getScore "aaaaa".toList
      (List.replicate 143165577 ⟨"aaaaa".toList, 0⟩ ++
        [⟨"bbxyz".toList, 0⟩, ⟨"qqqqc".toList, 0⟩]) = -2147483641 := by
    rw [getScore_append, getScore_replicate]
    simp only [hs1]
    have e : wrapInt32 (((143165577 : Nat) : Int) * 15) = -2147483641 := by
      unfold wrapInt32
      norm_num
    rw [e]
    decide
  have h2 : getScore "bbbcd".toList
      (List.replicate 143165577 ⟨"aaaaa".toList, 0⟩ ++
        [⟨"bbxyz".toList, 0⟩, ⟨"qqqqc".toList, 0⟩]) = 7 := by
    rw [getScore_append, getScore_replicate]
    simp only [hs2]
    have e : wrapInt32 (((143165577 : Nat) : Int) * 0) = 0 := by
      unfold wrapInt32
      norm_num
    rw [e]
    decide
  refine ⟨?_, ?_, by decide, by decide⟩
  · unfold findScoresAndTopWords scoreAllWords
    simp only [List.map_cons, List.map_nil, h1, h2]
    decide
  · unfold findScoresAndTopWords scoreAllWords
    simp only [List.map_cons, List.map_nil, h1, h2]
    decide

/-! ## The closed form of the comparison score -/

theorem exactCount_eq_matchingPositions (o : List Char) :
    ∀ c : List Char, exactCount o c = matchingPositions o c := by
  induction o with
  | nil => intro c; cases c <;> rfl
  | cons x xs ih =>
    intro c
    cases c with
    | nil => rfl
    | cons y ys =>
      have h := ih ys
      unfold matchingPositions at h ⊢
      unfold exactCount
      rw [List.zip_cons_cons, List.countP_cons, h]
      by_cases hxy : x = y
      · simp [hxy, Nat.add_comm]
      · simp [hxy]

theorem count_exactLeft (x : Char) (hx : x ≠ BLANK) (o : List Char) :
    ∀ c : List Char, o.length = c.length →
      (exactLeft o c).count x = unmatchedInOriginal x o c := by
  induction o with
  | nil =>
    intro c h
    cases c with
    | nil => rfl
    | cons y ys => simp at h
  | cons a as ih =>
    intro c h
    cases c with
    | nil => simp at h
    | cons b bs =>
      simp only [List.length_cons, Nat.add_right_cancel_iff] at h
      have h1 := ih bs h
      unfold unmatchedInOriginal at h1 ⊢
      unfold exactLeft
      rw [List.zip_cons_cons, List.countP_cons, List.count_cons, h1]
      by_cases hab : a = b
      · have hbx : ¬ BLANK = x := fun e => hx e.symm
        simp [hab, hbx]
      · by_cases hax : a = x
        · subst hax
          simp [hab]
        · simp [hab, hax]

theorem count_exactRight (x : Char) (hx : x ≠ BLANK) (o : List Char) :
    ∀ c : List Char, o.length = c.length →
      (exactRight o c).count x = unmatchedInCandidate x o c := by
  induction o with
  | nil =>
    intro c h
    cases c with
    | nil => rfl
    | cons y ys => simp at h
  | cons a as ih =>
    intro c h
    cases c with
    | nil => simp at h
    | cons b bs =>
      simp only [List.length_cons, Nat.add_right_cancel_iff] at h
      have h1 := ih bs h
      unfold unmatchedInCandidate at h1 ⊢
      unfold exactRight
      rw [List.zip_cons_cons, List.countP_cons, List.count_cons, h1]
      by_cases hab : a = b
      · have hbx : ¬ BLANK = x := fun e => hx e.symm
        simp [hab, hbx]
      · by_cases hbx : b = x
        · subst hbx
          simp [hab]
        · simp [hab, hbx]

theorem unmatchedInOriginal_eq_zero (x : Char) (o : List Char) (hx : x ∉ o) :
    ∀ c : List Char, unmatchedInOriginal x o c = 0 := by
  induction o with
  | nil => intro c; rfl
  | cons a as ih =>
    intro c
    cases c with
    | nil => rfl
    | cons b bs =>
      simp only [List.mem_cons, not_or] at hx
      have h1 := ih hx.2 bs
      unfold unmatchedInOriginal at h1 ⊢
      rw [List.zip_cons_cons, List.countP_cons, h1]
      have hax : ¬ a = x := fun e => hx.1 e.symm
      simp [hax]

/-- The number of letters two words share, counted with multiplicity, as a
sum over any set of characters that holds the letters of the first. -/
theorem card_inter_eq_sum (A B : Multiset Char) (S : Finset Char) (hS : ∀ x ∈ A, x ∈ S) :
    Multiset.card (A ∩ B) =
      Finset.sum S (fun x => min (Multiset.count x A) (Multiset.count x B)) := by
  rw [← Multiset.toFinset_sum_count_eq (A ∩ B)]
  have hsub : (A ∩ B).toFinset ⊆ S := by
    intro x hx
    exact hS x (Multiset.mem_of_le (Multiset.inter_le_left A B) (Multiset.mem_toFinset.1 hx))
  rw [Finset.sum_subset hsub]
  · apply Finset.sum_congr rfl
    intro x _
    exact Multiset.count_inter x A B
  · intro x _ hx
    exact Multiset.count_eq_zero.2 (fun h => hx (Multiset.mem_toFinset.2 h))

/-- The closed form for words of five characters, the first without blanks. -/
theorem score_eq_closed_form (o c : List Char) (ho : IsWord o) (hc : IsWord c)
    (hb : BLANK ∉ o) (S : Finset Char) (hS : ∀ x ∈ o, x ∈ S) :
    getSingleWordComparisonScore o c =
      3 * (matchingPositions o c : Int) +
        ((Finset.sum S
          (fun x => min (unmatchedInOriginal x o c) (unmatchedInCandidate x o c)) : Nat) :
          Int) := by
  have hlen : o.length = c.length := ho.trans hc.symm
  have hS2 : ∀ x ∈ letters (exactLeft o c), x ∈ S := by
    intro x hx
    have h1 := (mem_letters x _).1 hx
    rcases mem_exactLeft o c x h1.1 with h | h
    · exact hS x h
    · exact absurd h h1.2
  rw [score_eq o c ho hc, exactCount_eq_matchingPositions, reposCount_eq_card,
    card_inter_eq_sum _ _ S hS2]
  congr 2
  apply Finset.sum_congr rfl
  intro x _
  by_cases hx : x = BLANK
  · have h0 : Multiset.count x (letters (exactLeft o c)) = 0 :=
      Multiset.count_eq_zero.2 (fun h => ((mem_letters x _).1 h).2 hx)
    have h1 : unmatchedInOriginal x o c = 0 :=
      unmatchedInOriginal_eq_zero x o (by rw [hx]; exact hb) c
    rw [h0, h1, Nat.zero_min, Nat.zero_min]
  · rw [count_letters x hx, count_letters x hx, count_exactLeft x hx o c hlen,
      count_exactRight x hx o c hlen]

/-- C19: for words `o`, `c` of five alphabetic letters the comparison score
is `3 * E` plus the sum over the letters `x` of `min (O x) (C x)`: `E` is the
number of positions where the words agree, `O x` and `C x` count `x` in `o`
and in `c` at the other positions, and the sum runs over any set `S` of
characters that holds the letters of `o` (a letter outside `o` adds 0). -/
theorem score_closed_form (o c : List Char) (ho : IsAlphaWord o) (hc : IsAlphaWord c)
    (S : Finset Char) (hS : ∀ x ∈ o, x ∈ S) :
    getSingleWordComparisonScore o c =
      3 * (matchingPositions o c : Int) +
        ((Finset.sum S
          (fun x => min (unmatchedInOriginal x o c) (unmatchedInCandidate x o c)) : Nat) :
          Int) :=
  score_eq_closed_form o c ho.1 hc.1
    (fun h => ne_blank_of_mem_alphaWord ho h rfl) S hS

/-- C19 for "aabbb" against "ababa", summing over the letters of both. -/
theorem score_closed_form_witness :
    IsAlphaWord "aabbb".toList ∧ IsAlphaWord "ababa".toList ∧
      (∀ x ∈ "aabbb".toList, x ∈ ("aabbb".toList ++ "ababa".toList).toFinset) ∧
      getSingleWordComparisonScore "aabbb".toList "ababa".toList =
        3 * (matchingPositions "aabbb".toList "ababa".toList : Int) +
          ((Finset.sum ("aabbb".toList ++ "ababa".toList).toFinset
            (fun x => min (unmatchedInOriginal x "aabbb".toList "ababa".toList)
              (unmatchedInCandidate x "aabbb".toList "ababa".toList)) : Nat) : Int) :=
  ⟨by decide, by decide, by decide,
    score_closed_form "aabbb".toList "ababa".toList (by decide) (by decide)
      ("aabbb".toList ++ "ababa".toList).toFinset (by decide)⟩

/-! ## Discounting never raises a score -/

theorem letters_le_of_blanked {a d : List Char} (h : Blanked a d) :
    letters d ≤ letters a := by
  unfold Blanked at h
  induction h with
  | nil => exact le_refl _
  | @cons x y xs ys hxy _ ih =>
    by_cases hy : y = BLANK
    · rw [hy, letters_cons_blank]
      by_cases hx : x = BLANK
      · rw [hx, letters_cons_blank]; exact ih
      · rw [letters_cons_of_ne x xs hx]
        exact le_trans ih (Multiset.le_cons_self _ _)
    · have e : y = x := by
        rcases hxy with h1 | h1
        · exact h1
        · exact absurd h1 hy
      subst e
      rw [letters_cons_of_ne y xs hy, letters_cons_of_ne y ys hy]
      exact Multiset.cons_le_cons y ih

/-- Blanking positions of the candidate turns exact matches into leftover
letters of the guess and takes letters away from the candidate. -/
theorem exact_of_blanked (g : List Char) (hg : BLANK ∉ g) :
    ∀ a d : List Char, Blanked a d →
      ∃ m : Multiset Char,
        letters (exactLeft g d) = letters (exactLeft g a) + m ∧
        letters (exactRight g d) ≤ letters (exactRight g a) ∧
        exactCount g d + Multiset.card m = exactCount g a := by
  induction g with
  | nil =>
    intro a d h
    refine ⟨0, ?_, ?_, ?_⟩
    · cases a <;> cases d <;> simp [exactLeft]
    · have e1 : ∀ l : List Char, exactRight [] l = l := fun l => by cases l <;> rfl
      rw [e1, e1]
      exact letters_le_of_blanked h
    · cases a <;> cases d <;> simp [exactCount]
  | cons x xs ih =>
    intro a d h
    have hx : x ≠ BLANK := fun e => hg (by rw [e]; exact List.mem_cons_self _ _)
    have hxs : BLANK ∉ xs := fun e => hg (List.mem_cons_of_mem _ e)
    unfold Blanked at h
    cases h with
    | nil => exact ⟨0, by simp, le_refl _, by simp⟩
    | @cons y y' ys ys' hyy htl =>
      obtain ⟨m, h1, h2, h3⟩ := ih hxs ys ys' htl
      simp only [exactLeft, exactRight, exactCount]
      by_cases hsame : y' = y
      · subst hsame
        by_cases hxy : x = y'
        · refine ⟨m, ?_, ?_, ?_⟩
          · simp only [hxy, if_true, letters_cons_blank]
            exact h1
          · simp only [hxy, if_true, letters_cons_blank]
            exact h2
          · simp only [hxy, if_true]
            omega
        · refine ⟨m, ?_, ?_, ?_⟩
          · simp only [hxy, if_false]
            rw [letters_cons_of_ne x _ hx, letters_cons_of_ne x _ hx, h1, Multiset.cons_add]
          · simp only [hxy, if_false]
            by_cases hy : y' = BLANK
            · rw [hy, letters_cons_blank, letters_cons_blank]; exact h2
            · rw [letters_cons_of_ne y' _ hy, letters_cons_of_ne y' _ hy]
              exact Multiset.cons_le_cons y' h2
          · simp only [hxy, if_false]; omega
      · have hyb : y' = BLANK := by
          rcases hyy with e | e
          · exact absurd e hsame
          · exact e
        subst hyb
        have hxb : ¬ x = BLANK := hx
        simp only [hxb, if_false, letters_cons_blank]
        by_cases hxy : x = y
        · refine ⟨x ::ₘ m, ?_, ?_, ?_⟩
          · simp only [hxy, if_true, letters_cons_blank]
            rw [← hxy, letters_cons_of_ne x _ hx, h1, Multiset.add_cons]
          · simp only [hxy, if_true, letters_cons_blank]
            exact h2
          · simp only [hxy, if_true, Multiset.card_cons]
            omega
        · refine ⟨m, ?_, ?_, ?_⟩
          · simp only [hxy, if_false]
            rw [letters_cons_of_ne x _ hx, letters_cons_of_ne x _ hx, h1, Multiset.cons_add]
          · simp only [hxy, if_false]
            by_cases hy : y = BLANK
            · rw [hy, letters_cons_blank]; exact h2
            · rw [letters_cons_of_ne y _ hy]
              exact le_trans h2 (Multiset.le_cons_self _ _)
          · simp only [hxy, if_false]; omega

theorem inter_add_le (L M R R' : Multiset Char) (h : R' ≤ R) :
    (L + M) ∩ R' ≤ (L ∩ R) + M := by
  rw [Multiset.le_iff_count]
  intro x
  have := Multiset.le_iff_count.1 h x
  rw [Multiset.count_inter, Multiset.count_add, Multiset.count_add, Multiset.count_inter]
  omega

/-- A guess without blanks scores no more against a candidate with some
positions blanked than against the candidate itself. -/
theorem score_le_of_blanked (g a d : List Char) (hg : IsWord g) (hgb : BLANK ∉ g)
    (ha : IsWord a) (hd : IsWord d) (h : Blanked a d) :
    getSingleWordComparisonScore g d ≤ getSingleWordComparisonScore g a := by
  obtain ⟨m, h1, h2, h3⟩ := exact_of_blanked g hgb a d h
  rw [score_eq g d hg hd, score_eq g a hg ha, reposCount_eq_card, reposCount_eq_card, h1]
  have hc := Multiset.card_le_card
    (inter_add_le (letters (exactLeft g a)) m (letters (exactRight g a)) _ h2)
  rw [Multiset.card_add] at hc
  omega

theorem scoreSum_le_of_pointwise (g : List Char) (f : wordCountStruct → wordCountStruct)
    (l : List wordCountStruct)
    (h : ∀ a ∈ l, getSingleWordComparisonScore g (f a).word ≤
      getSingleWordComparisonScore g a.word) :
    ((l.map f).map (fun a => getSingleWordComparisonScore g a.word)).sum ≤
      (l.map (fun a => getSingleWordComparisonScore g a.word)).sum := by
  induction l with
  | nil => simp
  | cons a as ih =>
    have h1 := h a (List.mem_cons_self a as)
    have h2 := ih (fun b hb => h b (List.mem_cons_of_mem _ hb))
    simp only [List.map_cons, List.sum_cons]
    omega

/-- The score of a guess against one discounted answer. -/
theorem score_discounted_le (g w a : List Char) (hg : IsAlphaWord g) (hw : IsWord w)
    (ha : IsWord a) :
    getSingleWordComparisonScore g (removeMatchingLettersWord w a) ≤
      getSingleWordComparisonScore g a :=
  score_le_of_blanked g a _ hg.1 (fun h => ne_blank_of_mem_alphaWord hg h rfl) ha
    (removeMatchingLettersWord_isWord w a hw ha) (blanked_removeMatchingLettersWord w a hw ha)

/-- C20, as the program behaves: for words of five alphabetic letters the
guess `g` scores no more against an answer discounted by `w` than against
the answer itself; and when `15 * n` fits an `int` for the `n` answers,
`getScore` of `g` against the discounted copy of the answers (round 2) is at
most `getScore` of `g` against the answers (round 1). -/
theorem discounted_score_le (g w : List Char) (hg : IsAlphaWord g) (hw : IsAlphaWord w) :
    (∀ a : List Char, IsAlphaWord a →
        getSingleWordComparisonScore g (removeMatchingLettersWord w a) ≤
          getSingleWordComparisonScore g a) ∧
      ∀ answerWords : List wordCountStruct, (∀ a ∈ answerWords, IsAlphaWord a.word) →
        15 * (answerWords.length : Int) ≤ 2147483647 →
        getScore g
            (removeMatchingLetters
              (answerWords.map (fun a => ({ word := a.word, score := 0 } : wordCountStruct)))
              w) ≤
          getScore g answerWords := by
  refine ⟨fun a ha => score_discounted_le g w a hg hw.1 ha.1, ?_⟩
  intro answerWords hans hn
  have hans1 : ∀ a ∈ answerWords, IsWord a.word := fun a ha => (hans a ha).1
  have hz : ∀ a ∈ answerWords.map
      (fun a => ({ word := a.word, score := 0 } : wordCountStruct)), IsWord a.word := by
    intro a ha
    obtain ⟨b, hbm, rfl⟩ := List.mem_map.1 ha
    exact hans1 b hbm
  have hcopy := removeMatchingLetters_isWord _ w hw.1 hz
  have hlen : (removeMatchingLetters
      (answerWords.map (fun a => ({ word := a.word, score := 0 } : wordCountStruct)))
      w).length = answerWords.length := by
    unfold removeMatchingLetters
    rw [List.length_map, List.length_map]
  have hmap : removeMatchingLetters
      (answerWords.map (fun a => ({ word := a.word, score := 0 } : wordCountStruct))) w =
      answerWords.map (fun a =>
        ({ word := removeMatchingLettersWord w a.word, score := 0 } : wordCountStruct)) := by
    unfold removeMatchingLetters
    rw [List.map_map]
    apply List.map_congr_left
    intro a _
    simp only [Function.comp]
  rw [getScore_small g hg.1 _ hcopy (by rw [hlen]; exact hn),
    getScore_small g hg.1 answerWords hans1 hn, hmap]
  refine scoreSum_le_of_pointwise g
    (fun a => ({ word := removeMatchingLettersWord w a.word, score := 0 } : wordCountStruct))
    answerWords ?_
  intro a ha
  dsimp only
  exact score_discounted_le g w a.word hg hw.1 (hans1 a ha)

/-- C20 (amended) for the guess "angle" and the claimed word "amble", with
the answers "apple", "amble", "angle" in its second part. -/
theorem discounted_score_le_witness :
    IsAlphaWord "angle".toList ∧ IsAlphaWord "amble".toList ∧
      (getSingleWordComparisonScore "angle".toList
          (removeMatchingLettersWord "amble".toList "apple".toList) ≤
        getSingleWordComparisonScore "angle".toList "apple".toList) ∧
      getScore "angle".toList
          (removeMatchingLetters
            (([⟨"apple".toList, 0⟩, ⟨"amble".toList, 0⟩, ⟨"angle".toList, 0⟩] :
              List wordCountStruct).map
              (fun a => ({ word := a.word, score := 0 } : wordCountStruct)))
            "amble".toList) ≤
        getScore "angle".toList
          [⟨"apple".toList, 0⟩, ⟨"amble".toList, 0⟩, ⟨"angle".toList, 0⟩] :=
  ⟨by decide, by decide,
    (discounted_score_le "angle".toList "amble".toList (by decide) (by decide)).1
      "apple".toList (by decide),
    (discounted_score_le "angle".toList "amble".toList (by decide) (by decide)).2
      [⟨"apple".toList, 0⟩, ⟨"amble".toList, 0⟩, ⟨"angle".toList, 0⟩] (by decide)
      (by decide)⟩

/-- C20, refuted as stated: against 143165577 copies of the answer "aaaaa"
the guess "aaaaa" has the round-1 `getScore` -2147483641; the answers
discounted by "abbbb" are copies of " aaaa", against which the guess has the
round-2 `getScore` 1717986924, more than in round 1. -/
theorem discounted_getScore_overflow :
    removeMatchingLetters
        ((List.replicate 143165577 (⟨"aaaaa".toList, 0⟩ : wordCountStruct)).map
          (fun a => ({ word := a.word, score := 0 } : wordCountStruct)))
        "abbbb".toList =
      List.replicate 143165577 ⟨" aaaa".toList, 0⟩ ∧
    getScore "aaaaa".toList (List.replicate 143165577 ⟨"aaaaa".toList, 0⟩) = -2147483641 ∧
    getScore "aaaaa".toList (List.replicate 143165577 ⟨" aaaa".toList, 0⟩) = 1717986924 ∧
    ¬ (getScore "aaaaa".toList
          (removeMatchingLetters
            ((List.replicate 143165577 (⟨"aaaaa".toList, 0⟩ : wordCountStruct)).map
              (fun a => ({ word := a.word, score := 0 } : wordCountStruct)))
            "abbbb".toList) ≤
        getScore "aaaaa".toList (List.replicate 143165577 ⟨"aaaaa".toList, 0⟩)) := by
  have hr : removeMatchingLetters
      ((List.replicate 143165577 (⟨"aaaaa".toList, 0⟩ : wordCountStruct)).map
        (fun a => ({ word := a.word, score := 0 } : wordCountStruct)))
      "abbbb".toList = List.replicate 143165577 ⟨" aaaa".toList, 0⟩ := by
    unfold removeMatchingLetters
    rw [List.map_replicate, List.map_replicate]
    have e : removeMatchingLettersWord "abbbb".toList "aaaaa".toList = " aaaa".toList := by
      decide
    simp only [e]
  have hs1 : getSingleWordComparisonScore "aaaaa".toList "aaaaa".toList = 15 := by decide
  have hs2 : getSingleWordComparisonScore "aaaaa".toList " aaaa".toList = 12 := by decide
  have h1 : getScore "aaaaa".toList (List.replicate 143165577 ⟨"aaaaa".toList, 0⟩) =
      -2147483641 := by
    rw [getScore_replicate]
    simp only [hs1]
    unfold wrapInt32
    norm_num
  have h2 : getScore "aaaaa".toList (List.replicate 143165577 ⟨" aaaa".toList, 0⟩) =
      1717986924 := by
    rw [getScore_replicate]
    simp only [hs2]
    unfold wrapInt32
    norm_num
  refine ⟨hr, h1, h2, ?_⟩
  rw [hr, h1, h2]
  norm_num

/-! ## A word that is not five letters long in the comparator -/

theorem getD_append_nul (l : List Char) (i : Nat) :
    (l ++ [NUL]).getD i NUL = l.getD i NUL := by
  induction l generalizing i with
  | nil => cases i <;> simp [List.getD]
  | cons x xs ih =>
    cases i with
    | zero => simp
    | succ j => simpa using ih j

theorem nul_ne_blank : NUL ≠ BLANK := by decide

theorem getD_mem_of_lt (l : List Char) (i : Nat) (h : i < l.length) : l.getD i NUL ∈ l := by
  rw [List.getD_eq_getElem l NUL h]
  exact List.getElem_mem h

theorem getD_eq_nul_of_le (l : List Char) (i : Nat) (h : l.length ≤ i) : l.getD i NUL = NUL := by
  simp [List.getD, List.getElem?_eq_none h]

theorem mem_blankFirst (x y : Char) (cw : List Char) (h : y ∈ blankFirst x cw) :
    y ∈ cw ∨ y = BLANK := by
  induction cw with
  | nil => simp [blankFirst] at h
  | cons z zs ih =>
    unfold blankFirst at h
    by_cases hxz : x = z
    · rw [if_pos hxz] at h
      rcases List.mem_cons.1 h with h1 | h1
      · exact Or.inr h1
      · exact Or.inl (List.mem_cons_of_mem _ h1)
    · rw [if_neg hxz] at h
      rcases List.mem_cons.1 h with h1 | h1
      · exact Or.inl (by rw [h1]; exact List.mem_cons_self _ _)
      · rcases ih h1 with h2 | h2
        · exact Or.inl (List.mem_cons_of_mem _ h2)
        · exact Or.inr h2

theorem lt_of_getD_mem (ow cw : List Char) (i : Nat) (hlen : ow.length + 1 = WORD_LENGTH)
    (hn : NUL ∉ cw) (h : ow.getD i NUL ∈ cw) : i < ow.length := by
  by_contra hge
  rw [getD_eq_nul_of_le ow i (by omega)] at h
  exact hn h

theorem exactStep_padOriginal (st : CompareState) (i : Nat) (hi : i < WORD_LENGTH)
    (h : ShortOriginal st) :
    ShortOriginal (exactStep st i) ∧
      exactStep (padOriginal st) i = padOriginal (exactStep st i) := by
  obtain ⟨h1, h2, h3⟩ := h
  unfold exactStep padOriginal
  simp only [getD_append_nul]
  by_cases he : st.originalWord.getD i NUL = st.comparisonWord.getD i NUL
  · have hm : st.originalWord.getD i NUL ∈ st.comparisonWord := by
      rw [he]; exact getD_mem_of_lt _ i (by rw [h2]; exact hi)
    have hlt := lt_of_getD_mem _ _ i h1 h3 hm
    simp only [he, if_true]
    refine ⟨⟨by rw [List.length_set]; exact h1, by rw [List.length_set]; exact h2, ?_⟩, ?_⟩
    · intro hmem
      rcases List.mem_or_eq_of_mem_set hmem with h4 | h4
      · exact h3 h4
      · exact nul_ne_blank h4
    · rw [List.set_append_left _ _ hlt]
  · simp only [he, if_false]
    exact ⟨⟨h1, h2, h3⟩, trivial⟩

theorem reposStep_general (ow cw : List Char) (s : Int) (i : Nat)
    (hcw : cw.length = WORD_LENGTH) :
    reposStep { originalWord := ow, comparisonWord := cw, score := s } i =
      if ow.getD i NUL ≠ BLANK ∧ ow.getD i NUL ∈ cw then
        { originalWord := ow.set i BLANK
          comparisonWord := blankFirst (ow.getD i NUL) cw
          score := s + 1 }
      else { originalWord := ow, comparisonWord := cw, score := s } := by
  unfold reposStep
  dsimp only
  by_cases hx : ow.getD i NUL = BLANK
  · rw [if_neg (fun h => h hx), if_neg (fun h => h.1 hx)]
  · have h := reposInner_eq (ow.getD i NUL) i ow s cw []
    simp only [List.nil_append, List.length_nil, hcw] at h
    rw [if_pos hx, h]
    by_cases hm : ow.getD i NUL ∈ cw
    · rw [if_pos hm, if_pos ⟨hx, hm⟩]
    · rw [if_neg hm, if_neg (fun h => hm h.2)]

theorem reposStep_padOriginal (st : CompareState) (i : Nat)
    (h : ShortOriginal st) :
    ShortOriginal (reposStep st i) ∧
      reposStep (padOriginal st) i = padOriginal (reposStep st i) := by
  obtain ⟨h1, h2, h3⟩ := h
  cases st with
  | mk ow cw s =>
    simp only at h1 h2 h3
    unfold padOriginal
    simp only
    rw [reposStep_general ow cw s i h2, reposStep_general (ow ++ [NUL]) cw s i h2,
      getD_append_nul]
    by_cases hc : ow.getD i NUL ≠ BLANK ∧ ow.getD i NUL ∈ cw
    · have hlt := lt_of_getD_mem ow cw i h1 h3 hc.2
      rw [if_pos hc, if_pos hc]
      refine ⟨⟨by simp only [List.length_set]; exact h1,
        by simp only [blankFirst_length]; exact h2, ?_⟩, ?_⟩
      · intro hmem
        rcases mem_blankFirst _ _ _ hmem with h4 | h4
        · exact h3 h4
        · exact nul_ne_blank h4
      · simp only [List.set_append_left _ _ hlt]
    · rw [if_neg hc, if_neg hc]
      exact ⟨⟨h1, h2, h3⟩, rfl⟩

theorem foldl_exactStep_padOriginal (l : List Nat) :
    ∀ st : CompareState, (∀ i ∈ l, i < WORD_LENGTH) → ShortOriginal st →
      ShortOriginal (l.foldl exactStep st) ∧
        l.foldl exactStep (padOriginal st) = padOriginal (l.foldl exactStep st) := by
  induction l with
  | nil => intro st _ h; exact ⟨h, rfl⟩
  | cons i rest ih =>
    intro st hl h
    obtain ⟨g1, g2⟩ := exactStep_padOriginal st i (hl i (List.mem_cons_self i rest)) h
    simp only [List.foldl_cons]
    rw [g2]
    exact ih _ (fun j hj => hl j (List.mem_cons_of_mem _ hj)) g1

theorem foldl_reposStep_padOriginal (l : List Nat) :
    ∀ st : CompareState, ShortOriginal st →
      ShortOriginal (l.foldl reposStep st) ∧
        l.foldl reposStep (padOriginal st) = padOriginal (l.foldl reposStep st) := by
  induction l with
  | nil => intro st h; exact ⟨h, rfl⟩
  | cons i rest ih =>
    intro st h
    obtain ⟨g1, g2⟩ := reposStep_padOriginal st i h
    simp only [List.foldl_cons]
    rw [g2]
    exact ih _ g1

theorem score_short_original (o c : List Char) (ho : o.length + 1 = WORD_LENGTH)
    (hc : IsWord c) (hn : NUL ∉ c) :
    getSingleWordComparisonScore o c = getSingleWordComparisonScore (o ++ [NUL]) c := by
  have h0 : ShortOriginal { originalWord := o, comparisonWord := c, score := 0 } :=
    ⟨ho, hc, hn⟩
  obtain ⟨g1, g2⟩ := foldl_exactStep_padOriginal (List.range WORD_LENGTH) _
    (fun i hi => List.mem_range.1 hi) h0
  obtain ⟨_, g4⟩ := foldl_reposStep_padOriginal (List.range WORD_LENGTH) _ g1
  have e : padOriginal { originalWord := o, comparisonWord := c, score := 0 } =
      { originalWord := o ++ [NUL], comparisonWord := c, score := 0 } := rfl
  rw [e] at g2
  have h2 : compareAfterExact (o ++ [NUL]) c = padOriginal (compareAfterExact o c) := by
    unfold compareAfterExact
    exact g2
  have h4 : compareFinalState (o ++ [NUL]) c = padOriginal (compareFinalState o c) := by
    unfold compareFinalState
    rw [h2]
    unfold compareAfterExact
    exact g4
  unfold getSingleWordComparisonScore
  rw [h4]
  unfold padOriginal
  dsimp only

theorem nul_not_alpha : NUL.isAlpha = false := by decide

/-- C16, as the program behaves: a word of four letters that reaches the
comparator as the original word, against a candidate of five alphabetic
letters, is not rejected.  The loops run over the five characters of its
buffer, its terminator included, and the function returns the score it would
return for those five characters, a number between 0 and 15. -/
theorem score_of_short_word (o c : List Char) (ho : o.length = 4) (hc : IsAlphaWord c) :
    getSingleWordComparisonScore o c = getSingleWordComparisonScore (o ++ [NUL]) c ∧
      0 ≤ getSingleWordComparisonScore o c ∧ getSingleWordComparisonScore o c ≤ 15 := by
  have hn : NUL ∉ c := by
    intro h
    have := hc.2 NUL h
    rw [nul_not_alpha] at this
    exact Bool.noConfusion this
  have hlen : o.length + 1 = WORD_LENGTH := by rw [ho]; rfl
  have hw : IsWord (o ++ [NUL]) := by
    unfold IsWord
    rw [List.length_append, List.length_singleton]
    exact hlen
  have e := score_short_original o c hlen hc.1 hn
  rw [e]
  exact ⟨rfl, score_nonneg _ c hw hc.1, score_le _ c hw hc.1⟩

/-- C16 (amended) for the word "abcd" against "abcde". -/
theorem score_of_short_word_witness :
    "abcd".toList.length = 4 ∧ IsAlphaWord "abcde".toList ∧
      getSingleWordComparisonScore "abcd".toList "abcde".toList =
        getSingleWordComparisonScore ("abcd".toList ++ [NUL]) "abcde".toList ∧
      0 ≤ getSingleWordComparisonScore "abcd".toList "abcde".toList ∧
      getSingleWordComparisonScore "abcd".toList "abcde".toList ≤ 15 :=
  ⟨by decide, by decide, score_of_short_word "abcd".toList "abcde".toList (by decide)
    (by decide)⟩

/-- C16, refuted as stated: the word "abcd" is not five letters long, and
compared with "abcde" it is given the score 12 (four exact matches). -/
theorem score_abcd_abcde :
    "abcd".toList.length ≠ WORD_LENGTH ∧
      getSingleWordComparisonScore "abcd".toList "abcde".toList = 12 := by
  decide

/-! ## The scores 13, 14 and 15 -/

theorem exactCount_le_length (o c : List Char) : exactCount o c ≤ o.length := by
  have h := exactCount_add_card_letters_le o c
  omega

/-- Words of one length that agree at every position are equal. -/
theorem eq_of_exactCount_eq_length (o : List Char) :
    ∀ c : List Char, o.length = c.length → exactCount o c = o.length → o = c := by
  induction o with
  | nil =>
    intro c h _
    cases c with
    | nil => rfl
    | cons y ys => simp at h
  | cons x xs ih =>
    intro c h he
    cases c with
    | nil => simp at h
    | cons y ys =>
      simp only [List.length_cons, Nat.add_right_cancel_iff] at h
      have hle := exactCount_le_length xs ys
      unfold exactCount at he
      simp only [List.length_cons] at he
      by_cases hxy : x = y
      · rw [if_pos hxy] at he
        rw [hxy, ih ys h (by omega)]
      · rw [if_neg hxy] at he
        omega

/-- When the words agree at all positions but one, the two letters left over
are different and the second loop credits nothing. -/
theorem inter_eq_zero_of_one_mismatch (o : List Char) :
    ∀ c : List Char, o.length = c.length → exactCount o c + 1 = o.length →
      letters (exactLeft o c) ∩ letters (exactRight o c) = 0 := by
  induction o with
  | nil =>
    intro c _ he
    simp at he
  | cons x xs ih =>
    intro c h he
    cases c with
    | nil => simp at h
    | cons y ys =>
      simp only [List.length_cons, Nat.add_right_cancel_iff] at h
      have hle := exactCount_le_length xs ys
      unfold exactCount at he
      simp only [List.length_cons] at he
      unfold exactLeft exactRight
      by_cases hxy : x = y
      · rw [if_pos hxy] at he
        rw [if_pos hxy, if_pos hxy, letters_cons_blank, letters_cons_blank]
        exact ih ys h (by omega)
      · rw [if_neg hxy] at he
        rw [if_neg hxy, if_neg hxy]
        have hall : exactCount xs ys = xs.length := by omega
        have heq := eq_of_exactCount_eq_length xs ys h hall
        subst heq
        have hL : letters (exactLeft xs xs) = 0 := letters_exactLeft_self xs
        have hR : letters (exactRight xs xs) = 0 := by
          rw [exactRight_eq_exactLeft_swap]; exact hL
        by_cases hx : x = BLANK
        · rw [hx, letters_cons_blank, hL]
          exact Multiset.zero_inter _
        · rw [letters_cons_of_ne x _ hx, hL]
          by_cases hy : y = BLANK
          · rw [hy, letters_cons_blank, hR]
            exact Multiset.inter_zero _
          · rw [letters_cons_of_ne y _ hy, hR]
            apply Multiset.cons_inter_of_neg
            intro hm
            exact hxy (by simpa using hm)

/-- The score of two different words of five characters is at most 12. -/
theorem score_le_twelve_of_ne (a b : List Char) (ha : IsWord a) (hb : IsWord b)
    (hne : a ≠ b) : getSingleWordComparisonScore a b ≤ 12 := by
  have hlen : a.length = b.length := ha.trans hb.symm
  have h5 : a.length = 5 := ha
  have hle := exactCount_le_length a b
  have hcr := credits_le a b
  have hne5 : exactCount a b ≠ a.length := fun e =>
    hne (eq_of_exactCount_eq_length a b hlen e)
  rw [score_eq a b ha hb]
  by_cases h4 : exactCount a b + 1 = a.length
  · have hz := inter_eq_zero_of_one_mismatch a b hlen h4
    have hr : reposCount (exactLeft a b) (exactRight a b) = 0 := by
      rw [reposCount_eq_card, hz]; rfl
    rw [hr]
    omega
  · omega

theorem score_self_isWord (w : List Char) (hw : IsWord w) :
    getSingleWordComparisonScore w w = 15 := by
  have hlen : w.length = 5 := hw
  rw [score_eq w w hw hw, exactCount_self, reposCount_eq_card, letters_exactLeft_self, hlen]
  simp

/-- C22: for words of five alphabetic letters the comparison score is 15
exactly when the two words are equal; for different words it is at most 12;
so it is never 13 or 14. -/
theorem score_fifteen_iff (a b : List Char) (ha : IsAlphaWord a) (hb : IsAlphaWord b) :
    (getSingleWordComparisonScore a b = 15 ↔ a = b) ∧
      (a ≠ b → getSingleWordComparisonScore a b ≤ 12) ∧
      getSingleWordComparisonScore a b ≠ 13 ∧ getSingleWordComparisonScore a b ≠ 14 := by
  have hne := score_le_twelve_of_ne a b ha.1 hb.1
  have hself : a = b → getSingleWordComparisonScore a b = 15 := by
    intro e
    rw [← e]
    exact score_self_isWord a ha.1
  refine ⟨⟨?_, hself⟩, hne, ?_, ?_⟩
  · intro h15
    by_contra hab
    have := hne hab
    omega
  · intro h13
    by_cases hab : a = b
    · have := hself hab
      omega
    · have := hne hab
      omega
  · intro h14
    by_cases hab : a = b
    · have := hself hab
      omega
    · have := hne hab
      omega

/-- C22 for the words "apple" and "ample", which differ at one position. -/
theorem score_fifteen_iff_witness :
    IsAlphaWord "apple".toList ∧ IsAlphaWord "ample".toList ∧
      (getSingleWordComparisonScore "apple".toList "ample".toList = 15 ↔
        "apple".toList = "ample".toList) ∧
      ("apple".toList ≠ "ample".toList →
        getSingleWordComparisonScore "apple".toList "ample".toList ≤ 12) ∧
      getSingleWordComparisonScore "apple".toList "ample".toList ≠ 13 ∧
      getSingleWordComparisonScore "apple".toList "ample".toList ≠ 14 :=
  ⟨by decide, by decide,
    score_fifteen_iff "apple".toList "ample".toList (by decide) (by decide)⟩

/-! ## Letter counts and blanks after discounting -/

theorem count_blank_add_card_letters (l : List Char) :
    l.count BLANK + Multiset.card (letters l) = l.length := by
  induction l with
  | nil => rfl
  | cons x xs ih =>
    by_cases hx : x = BLANK
    · rw [hx, letters_cons_blank, List.count_cons_self, List.length_cons]
      omega
    · rw [letters_cons_of_ne x xs hx, Multiset.card_cons,
        List.count_cons_of_ne (Ne.symm hx), List.length_cons]
      omega

/-- The letters of the discounted answer are the letters of the answer less
the letters of the claimed word. -/
theorem letters_removeMatchingLettersWord (w a : List Char) (hw : IsWord w) (ha : IsWord a) :
    letters (removeMatchingLettersWord w a) = letters a - letters w := by
  obtain ⟨m, h1, h2⟩ := letters_exact w a
  rw [removeMatchingLettersWord_eq w a hw ha, letters_blankAll, h1, h2]
  exact (add_tsub_add_eq_tsub_right _ m _).symm

/-- In a discounted word as many positions differ from the answer as hold a
blank, when the answer has no blank of its own. -/
theorem countP_ne_of_blanked {a d : List Char} (h : Blanked a d) (hb : BLANK ∉ a) :
    (List.zip a d).countP (fun p => decide (p.1 ≠ p.2)) = d.count BLANK := by
  unfold Blanked at h
  induction h with
  | nil => rfl
  | @cons x y xs ys hxy _ ih =>
    have hx : x ≠ BLANK := fun e => hb (by rw [e]; exact List.mem_cons_self _ _)
    have hxs : BLANK ∉ xs := fun e => hb (List.mem_cons_of_mem _ e)
    rw [List.zip_cons_cons, List.countP_cons, ih hxs]
    rcases hxy with e | e
    · rw [e, List.count_cons_of_ne (Ne.symm hx)]
      simp
    · rw [e, List.count_cons_self]
      simp [hx]

/-- The number of blanks in the discounted answer. -/
theorem count_blank_removeMatchingLettersWord (w a : List Char) (hw : IsWord w)
    (ha : IsWord a) (hb : BLANK ∉ a) (S : Finset Char) (hS : ∀ x ∈ a, x ∈ S) :
    (removeMatchingLettersWord w a).count BLANK =
      Finset.sum S (fun x => min (a.count x) (w.count x)) := by
  have h1 := count_blank_add_card_letters (removeMatchingLettersWord w a)
  have h2 : (removeMatchingLettersWord w a).length = a.length :=
    (removeMatchingLettersWord_isWord w a hw ha).trans ha.symm
  have h3 := count_blank_add_card_letters a
  have h4 : a.count BLANK = 0 := List.count_eq_zero.2 hb
  have h5 := congrArg Multiset.card (Multiset.sub_add_inter (letters a) (letters w))
  rw [Multiset.card_add, ← letters_removeMatchingLettersWord w a hw ha] at h5
  have hS2 : ∀ x ∈ letters a, x ∈ S := fun x hx => hS x ((mem_letters x a).1 hx).1
  have h6 := card_inter_eq_sum (letters a) (letters w) S hS2
  have h7 : Finset.sum S
      (fun x => min (Multiset.count x (letters a)) (Multiset.count x (letters w))) =
      Finset.sum S (fun x => min (a.count x) (w.count x)) := by
    apply Finset.sum_congr rfl
    intro x _
    by_cases hx : x = BLANK
    · have e0 : Multiset.count x (letters a) = 0 :=
        Multiset.count_eq_zero.2 (fun h => ((mem_letters x a).1 h).2 hx)
      rw [e0, hx, h4, Nat.zero_min, Nat.zero_min]
    · rw [count_letters x hx, count_letters x hx]
  rw [← h7, ← h6]
  omega

/-- C21: for words `w`, `a` of five alphabetic letters and the answer `a`
discounted by `w`: every character `x` other than the blank, in particular
every letter, occurs in the discounted answer `max 0 (count of x in a -
count of x in w)` times; and the number of blanked positions (the positions
that hold a blank, which are the positions that differ from `a`) is the sum
of `min (count of x in a) (count of x in w)` over the letters `x`, taken over
any set `S` of characters that holds the letters of `a`. -/
theorem discounted_letter_counts (w a : List Char) (hw : IsAlphaWord w) (ha : IsAlphaWord a) :
    (∀ x : Char, x ≠ BLANK →
        (((removeMatchingLettersWord w a).count x : Nat) : Int) =
          max 0 ((a.count x : Int) - (w.count x : Int))) ∧
      ∀ S : Finset Char, (∀ x ∈ a, x ∈ S) →
        (removeMatchingLettersWord w a).count BLANK =
            Finset.sum S (fun x => min (a.count x) (w.count x)) ∧
          (List.zip a (removeMatchingLettersWord w a)).countP (fun p => decide (p.1 ≠ p.2)) =
            Finset.sum S (fun x => min (a.count x) (w.count x)) := by
  have hb : BLANK ∉ a := fun h => ne_blank_of_mem_alphaWord ha h rfl
  refine ⟨?_, ?_⟩
  · intro x hx
    have h := count_removeMatchingLettersWord w a hw.1 ha.1 x hx
    rw [h]
    omega
  · intro S hS
    have h := count_blank_removeMatchingLettersWord w a hw.1 ha.1 hb S hS
    refine ⟨h, ?_⟩
    rw [countP_ne_of_blanked (blanked_removeMatchingLettersWord w a hw.1 ha.1) hb, h]

/-- C21 for the claimed word "abcde" and the answer "aafgh". -/
theorem discounted_letter_counts_witness :
    IsAlphaWord "abcde".toList ∧ IsAlphaWord "aafgh".toList ∧
      (∀ x : Char, x ≠ BLANK →
        (((removeMatchingLettersWord "abcde".toList "aafgh".toList).count x : Nat) : Int) =
          max 0 (("aafgh".toList.count x : Int) - ("abcde".toList.count x : Int))) ∧
      ∀ S : Finset Char, (∀ x ∈ "aafgh".toList, x ∈ S) →
        (removeMatchingLettersWord "abcde".toList "aafgh".toList).count BLANK =
            Finset.sum S (fun x => min ("aafgh".toList.count x) ("abcde".toList.count x)) ∧
          (List.zip "aafgh".toList
              (removeMatchingLettersWord "abcde".toList "aafgh".toList)).countP
              (fun p => decide (p.1 ≠ p.2)) =
            Finset.sum S (fun x => min ("aafgh".toList.count x) ("abcde".toList.count x)) :=
  ⟨by decide, by decide,
    discounted_letter_counts "abcde".toList "aafgh".toList (by decide) (by decide)⟩

end BestWordle
